import Mathlib

/-!
Shallow embedding of `graph4nlp/pytorch/data/data.py`: the class `GraphData`
and the module functions `to_batch` and `from_batch`.

Modelling conventions.
* Python ints are `Int`; element counts are `Nat`.
* A torch tensor is modelled by its rows along the leading dimension
  (`List (List Int)`) together with the common row width (the flattened
  trailing shape, which torch keeps even when there are no rows).
* A Python `dict` is an insertion-ordered association list with unique keys.
* A raised Python exception is an `Except.error`; the constructor records
  the exception class, message formatting is elided.
* `utils.py` and `views.py` of the repository are not among the given
  sources; the helpers imported from them are modelled from the spec and
  carry a doc comment saying so.
-/

/-- Python exception classes raised by the embedded code.  `preconditionError`
names the precondition failure the spec prescribes for debatching a
non-batch; the code never raises it. -/
inductive Err where
  | valueError
  | assertionError
  | sizeMismatch
  | edgeNotFound
  | indexError
  | typeError
  | runtimeError
  | keyError
  | preconditionError
deriving DecidableEq, Repr

/-- A dense numeric array: `rows` indexes the leading dimension, `width` is
the flattened trailing shape. -/
structure Tensor where
  width : Nat
  rows : List (List Int)
deriving DecidableEq, Repr

/-- A Python selector: an integer index, a `slice` object, or a list of
integer indices. -/
inductive Sel where
  | idx (i : Int)
  | sl (start stop step : Option Int)
  | lst (l : List Int)
deriving DecidableEq, Repr

/-- Modelled from the spec: `slice_to_list` from the absent `utils.py`.
It lists the indices a Python `slice(start, stop, step)` denotes on a
sequence of length `n`, following the semantics of `slice.indices`.
A zero step (a `ValueError` in Python) is modelled as the empty list. -/
def sliceIdxList (start stop step : Option Int) (n : Nat) : List Int :=
  let N : Int := (n : Int)
  let st : Int := step.getD 1
  let adj : Int → Int := fun s => if s < 0 then s + N else s
  if st > 0 then
    let lo : Int := match start with
      | none => 0
      | some s => min (max (adj s) 0) N
    let hi : Int := match stop with
      | none => N
      | some s => min (max (adj s) 0) N
    let len : Nat := if hi ≤ lo then 0 else ((hi - lo - 1) / st + 1).toNat
    (List.range len).map (fun j => lo + st * Int.ofNat j)
  else if st < 0 then
    let lo : Int := match start with
      | none => N - 1
      | some s => min (max (adj s) (-1)) (N - 1)
    let hi : Int := match stop with
      | none => -1
      | some s => min (max (adj s) (-1)) (N - 1)
    let len : Nat := if lo ≤ hi then 0 else ((lo - hi - 1) / (-st) + 1).toNat
    (List.range len).map (fun j => lo + st * Int.ofNat j)
  else []

/-- A feature table (`_node_features` / `_edge_features`): feature name to
optional tensor, in insertion order. -/
abbrev FeatTable := List (String × Option Tensor)

/-- An attribute record (one slot of `_node_attributes` /
`_edge_attributes`). -/
abbrev AttrRec := List (String × Option Int)

/-- `_nids_eid_mapping`: endpoint pair to edge id, in insertion order. -/
abbrev EidMap := List ((Int × Int) × Nat)

/-- Dictionary read on a feature table. -/
def tlookup : FeatTable → String → Option (Option Tensor)
  | [], _ => none
  | (k', v) :: rest, k => if k' = k then some v else tlookup rest k

/-- Dictionary write on a feature table: replace the value of an existing
key in place, or append a new key at the end. -/
def tableSet : FeatTable → String → Option Tensor → FeatTable
  | [], k, v => [(k, v)]
  | (k', v') :: rest, k, v =>
    if k' = k then (k', v) :: rest else (k', v') :: tableSet rest k v

/-- Dictionary read on the endpoint mapping. -/
def mlookup : EidMap → Int × Int → Option Nat
  | [], _ => none
  | (p, e) :: rest, q => if p = q then some e else mlookup rest q

/-- `res_init_node_features` (data.py line 27). -/
def initNodeFeatures : FeatTable := [("node_feat", none), ("node_emb", none)]

/-- `res_init_edge_features` (data.py line 34). -/
def initEdgeFeatures : FeatTable :=
  [("edge_feat", none), ("edge_emb", none), ("edge_weight", none)]

/-- `res_init_node_attr` (data.py line 26). -/
def initNodeAttr : AttrRec := [("node_attr", none)]

/-- `res_init_edge_attributes` (data.py line 35). -/
def initEdgeAttr : AttrRec := [("edge_attr", none)]

/-- The state of a `GraphData` instance (data.py lines 45-70); the opaque
`device` tag is omitted. -/
structure GraphData where
  node_attributes : List AttrRec
  node_features : FeatTable
  edge_src : List Int
  edge_tgt : List Int
  nids_eid_mapping : EidMap
  edge_features : FeatTable
  edge_attributes : List AttrRec
  is_batch : Bool
  batch : Option (List Nat)
  batch_size : Option Nat
  batch_num_nodes : Option (List Nat)
  batch_num_edges : Option (List Nat)
deriving DecidableEq, Repr

/-- `GraphData.__init__` with no source graph. -/
def GraphData.init : GraphData where
  node_attributes := []
  node_features := initNodeFeatures
  edge_src := []
  edge_tgt := []
  nids_eid_mapping := []
  edge_features := initEdgeFeatures
  edge_attributes := []
  is_batch := false
  batch := none
  batch_size := none
  batch_num_nodes := none
  batch_num_edges := none

/-- `get_node_num` (data.py line 110). -/
def GraphData.get_node_num (g : GraphData) : Nat := g.node_attributes.length

/-- `get_edge_num` (data.py line 283). -/
def GraphData.get_edge_num (g : GraphData) : Nat := g.edge_src.length

/-- Modelled from the spec: `entail_zero_padding` from the absent
`utils.py` (spec section 4.3, padding policy on growth): a present array is
extended by `k` rows equal to the additive identity of its trailing shape,
an absent array stays absent. -/
def entail_zero_padding (t : Option Tensor) (k : Nat) : Option Tensor :=
  match t with
  | none => none
  | some t => some ⟨t.width, t.rows ++ List.replicate k (List.replicate t.width 0)⟩

/-- The per-key padding loop over a feature table (data.py lines 127-128,
323-324, 375-376). -/
def padTable (tb : FeatTable) (k : Nat) : FeatTable :=
  tb.map (fun kv => (kv.1, entail_zero_padding kv.2 k))

/-- `add_nodes` (data.py lines 112-128). -/
def GraphData.add_nodes (g : GraphData) (node_num : Int) : Except Err GraphData :=
  if node_num ≤ 0 then .error .assertionError
  else .ok { g with
    node_attributes := g.node_attributes ++ List.replicate node_num.toNat initNodeAttr,
    node_features := padTable g.node_features node_num.toNat }

/-- `add_edge` (data.py lines 285-324).  The endpoint check keeps the
conjunctions exactly as the source writes them (`and` joining the two
endpoint clauses, `and` inside the target clause). -/
def GraphData.add_edge (g : GraphData) (src tgt : Int) : Except Err GraphData :=
  let n : Int := (g.get_node_num : Int)
  if (src < 0 ∨ src ≥ n) ∧ (tgt < 0 ∧ tgt ≥ n) then .error .valueError
  else if (mlookup g.nids_eid_mapping (src, tgt)).isSome then .ok g
  else .ok { g with
    nids_eid_mapping := g.nids_eid_mapping ++ [((src, tgt), g.get_edge_num)],
    edge_src := g.edge_src ++ [src],
    edge_tgt := g.edge_tgt ++ [tgt],
    edge_attributes := g.edge_attributes ++ [initEdgeAttr],
    edge_features := padTable g.edge_features 1 }

/-- Modelled from the spec: `check_and_expand` and `int_to_list` from the
absent `utils.py` (spec section 4.2): a single endpoint broadcasts against
a list, otherwise the lengths must agree. -/
def check_and_expand (src tgt : List Int) : Except Err (List Int × List Int) :=
  if src.length = tgt.length then .ok (src, tgt)
  else match src, tgt with
    | [x], t => .ok (List.replicate t.length x, t)
    | s, [y] => .ok (s, List.replicate s.length y)
    | _, _ => .error .sizeMismatch

/-- The duplicate-marking loop of `add_edges` (data.py lines 351-359): walk
the endpoint pairs, record the position of every pair already present in
the mapping, and register each fresh pair at id `base + position`. -/
def markDups (pairs : List (Int × Int)) (m : EidMap) (base i : Nat) :
    EidMap × List Nat :=
  match pairs with
  | [] => (m, [])
  | p :: rest =>
    if (mlookup m p).isSome then
      let r := markDups rest m base (i + 1)
      (r.1, i :: r.2)
    else
      markDups rest (m ++ [(p, base + i)]) base (i + 1)

/-- Popping the positions `ds` in descending order (data.py lines 362-365):
keep the elements whose original position is not listed. -/
def removeIdxs {α : Type} (l : List α) (ds : List Nat) : List α :=
  (l.enum.filter (fun p => !(ds.contains p.1))).map Prod.snd

/-- `add_edges` (data.py lines 326-376), list form. -/
def GraphData.add_edges (g : GraphData) (src0 tgt0 : List Int) :
    Except Err GraphData := do
  let st ← check_and_expand src0 tgt0
  let src := st.1
  let tgt := st.2
  if src.length ≠ tgt.length then .error .assertionError
  else
    let n : Int := (g.get_node_num : Int)
    if (src.zip tgt).any
        (fun p => decide ((p.1 < 0 ∨ p.1 ≥ n) ∧ (p.2 < 0 ∧ p.2 ≥ n))) then
      .error .valueError
    else
      let base := g.edge_attributes.length
      let md := markDups (src.zip tgt) g.nids_eid_mapping base 0
      let src' := removeIdxs src md.2
      let tgt' := removeIdxs tgt md.2
      .ok { g with
        nids_eid_mapping := md.1,
        edge_src := g.edge_src ++ src',
        edge_tgt := g.edge_tgt ++ tgt',
        edge_attributes :=
          g.edge_attributes ++ List.replicate src'.length initEdgeAttr,
        edge_features := padTable g.edge_features src'.length }

/-- `edge_ids` (data.py lines 378-408), list form. -/
def GraphData.edge_ids (g : GraphData) (src tgt : List Int) :
    Except Err (List Nat) := do
  let st ← check_and_expand src tgt
  (st.1.zip st.2).mapM (fun p =>
    match mlookup g.nids_eid_mapping p with
    | some e => .ok e
    | none => .error .edgeNotFound)

/-- `get_all_edges` (data.py lines 410-422). -/
def GraphData.get_all_edges (g : GraphData) : List (Int × Int) :=
  g.edge_src.zip g.edge_tgt

/-- A Python index into the leading dimension of length `n`: negative
values count from the end. -/
def pyIdx (i : Int) (n : Nat) : Option Nat :=
  let j : Int := if i < 0 then i + (n : Int) else i
  if 0 ≤ j ∧ j < (n : Int) then some j.toNat else none

/-- The index positions a selector denotes on a tensor of `n` rows. -/
def selIndices (sel : Sel) (n : Nat) : Except Err (List Nat) :=
  match sel with
  | .idx i =>
    match pyIdx i n with
    | some j => .ok [j]
    | none => .error .indexError
  | .sl a b c => .ok ((sliceIdxList a b c n).map Int.toNat)
  | .lst l =>
    l.foldrM (fun i acc =>
      match pyIdx i n with
      | some j => .ok (j :: acc)
      | none => .error .indexError) []

/-- Tensor read `t[sel]` on the leading dimension.  An integer index, a
slice and an index list are all modelled as the sub-tensor of the selected
rows. -/
def tensorIndex (t : Tensor) (sel : Sel) : Except Err Tensor := do
  let idxs ← selIndices sel t.rows.length
  .ok ⟨t.width, idxs.map (fun i => t.rows.getD i [])⟩

/-- Sequential overwrite of rows at the given positions. -/
def writeRows (rows : List (List Int)) : List Nat → List (List Int) → List (List Int)
  | i :: is', r :: rs => writeRows (rows.set i r) is' rs
  | _, _ => rows

/-- In-place tensor write `t[sel] = v`: the value must supply exactly one
row per selected position and keep the trailing shape (torch broadcasting
is not modelled; a mismatch is the runtime error torch raises). -/
def tensorSetItem (t : Tensor) (sel : Sel) (v : Tensor) : Except Err Tensor := do
  let idxs ← selIndices sel t.rows.length
  if v.rows.length = idxs.length ∧ v.width = t.width then
    .ok ⟨t.width, writeRows t.rows idxs v.rows⟩
  else .error .runtimeError

/-- The per-name read loop shared by `get_node_features` (data.py lines
155-175) and `get_edge_feature` (data.py lines 429-449): absent features
read back as `None`, present ones are indexed by the selector. -/
def getFeats (tb : FeatTable) (sel : Sel) :
    Except Err (List (String × Option Tensor)) :=
  match tb with
  | [] => .ok []
  | (k, none) :: rest => do
    let r ← getFeats rest sel
    .ok ((k, none) :: r)
  | (k, some t) :: rest => do
    let v ← tensorIndex t sel
    let r ← getFeats rest sel
    .ok ((k, some v) :: r)

/-- `get_node_features` (data.py lines 155-175). -/
def GraphData.get_node_features (g : GraphData) (nodes : Sel) :
    Except Err (List (String × Option Tensor)) :=
  getFeats g.node_features nodes

/-- `node_feature_names` (data.py lines 177-178). -/
def GraphData.node_feature_names (g : GraphData) : List String :=
  g.node_features.map Prod.fst

/-- `get_edge_feature` (data.py lines 429-449); the source takes a list of
edge indices. -/
def GraphData.get_edge_feature (g : GraphData) (edges : List Int) :
    Except Err (List (String × Option Tensor)) :=
  getFeats g.edge_features (.lst edges)

/-- `get_edge_feature_names` (data.py lines 451-453). -/
def GraphData.get_edge_feature_names (g : GraphData) : List String :=
  g.edge_features.map Prod.fst

/-- Whether `set_node_features` / `set_edge_feature` treats the key as a
brand-new feature (data.py lines 198, 473): the key is missing from the
table or maps to `None`. -/
def isNewFeat (tb : FeatTable) (k : String) : Bool :=
  match tlookup tb k with
  | none => true
  | some none => true
  | some (some _) => false

/-- The new-feature coverage condition (data.py lines 200-201, 475-476):
the selector is a slice and `slice_to_list` of it has exactly `n`
elements. -/
def fullCover (sel : Sel) (n : Nat) : Bool :=
  match sel with
  | .sl a b c => decide ((sliceIdxList a b c n).length = n)
  | _ => false

/-- `set_node_features` (data.py lines 180-221).  The consistency check
over all keys precedes any modification, as in the source. -/
def GraphData.set_node_features (g : GraphData) (nodes : Sel)
    (new_data : List (String × Tensor)) : Except Err GraphData :=
  if new_data.any
      (fun kv => isNewFeat g.node_features kv.1 && !(fullCover nodes g.get_node_num)) then
    .error .valueError
  else
    new_data.foldlM (fun gacc kv =>
      if kv.2.rows.length ≠ gacc.get_node_num then .error .assertionError
      else if isNewFeat gacc.node_features kv.1 then
        .ok { gacc with node_features := tableSet gacc.node_features kv.1 (some kv.2) }
      else if nodes = Sel.sl none none none then
        .ok { gacc with node_features := tableSet gacc.node_features kv.1 (some kv.2) }
      else
        match tlookup gacc.node_features kv.1 with
        | some (some t) => do
          let t' ← tensorSetItem t nodes kv.2
          .ok { gacc with node_features := tableSet gacc.node_features kv.1 (some t') }
        | _ => .error .keyError) g

/-- `set_edge_feature` (data.py lines 455-495).  Mirrors the node path,
except that the new-feature coverage failure raises
`SizeMismatchException`. -/
def GraphData.set_edge_feature (g : GraphData) (edges : Sel)
    (new_data : List (String × Tensor)) : Except Err GraphData :=
  if new_data.any
      (fun kv => isNewFeat g.edge_features kv.1 && !(fullCover edges g.get_edge_num)) then
    .error .sizeMismatch
  else
    new_data.foldlM (fun gacc kv =>
      if kv.2.rows.length ≠ gacc.get_edge_num then .error .assertionError
      else if isNewFeat gacc.edge_features kv.1 then
        .ok { gacc with edge_features := tableSet gacc.edge_features kv.1 (some kv.2) }
      else if edges = Sel.sl none none none then
        .ok { gacc with edge_features := tableSet gacc.edge_features kv.1 (some kv.2) }
      else
        match tlookup gacc.edge_features kv.1 with
        | some (some t) => do
          let t' ← tensorSetItem t edges kv.2
          .ok { gacc with edge_features := tableSet gacc.edge_features kv.1 (some t') }
        | _ => .error .keyError) g

/-- First-encounter deduplication of a name list, with the names already
seen carried in the accumulator. -/
def dedupAux : List String → List String → List String
  | [], _ => []
  | k :: rest, seen =>
    if k ∈ seen then dedupAux rest seen else k :: dedupAux rest (k :: seen)

/-- The feature-gathering loops of `to_batch` (data.py lines 787-793 and
826-832), with the mutable dictionary replaced by its final contents: the
gathered names in first-encounter order, each with the values of the tables
having that name, in table order. -/
def gatherFeats (tables : List FeatTable) : List (String × List (Option Tensor)) :=
  (dedupAux ((tables.map (fun tb => tb.map Prod.fst)).join) []).map
    (fun k => (k, tables.filterMap (fun tb => tlookup tb k)))

/-- `torch.cat` along the leading dimension: the trailing shapes must
agree. -/
def catTensors : List Tensor → Except Err Tensor
  | [] => .error .runtimeError
  | t :: rest =>
    if rest.all (fun u => u.width == t.width) then
      .ok ⟨t.width, (t.rows :: rest.map Tensor.rows).join⟩
    else .error .runtimeError

/-- Steps 2 of `to_batch` (data.py lines 794-799): write each gathered name
whose value list contains no `None` into the batch as a full-range write;
the view assignment `big_graph.node_features[k] = v` is `set_node_features`
with the full slice (`views.py` is absent from the sources; the spec
describes the views as thin windows over the owning graph). -/
def setNodeFeatsFold (g : GraphData) :
    List (String × List (Option Tensor)) → Except Err GraphData
  | [] => .ok g
  | (k, v) :: rest =>
    if none ∈ v then setNodeFeatsFold g rest
    else do
      let t ← catTensors v.reduceOption
      let g' ← g.set_node_features (.sl none none none) [(k, t)]
      setNodeFeatsFold g' rest

/-- Step 5 of `to_batch` (data.py lines 833-838), the edge analogue of
`setNodeFeatsFold`. -/
def setEdgeFeatsFold (g : GraphData) :
    List (String × List (Option Tensor)) → Except Err GraphData
  | [] => .ok g
  | (k, v) :: rest =>
    if none ∈ v then setEdgeFeatsFold g rest
    else do
      let t ← catTensors v.reduceOption
      let g' ← g.set_edge_feature (.sl none none none) [(k, t)]
      setEdgeFeatsFold g' rest

/-- Sequential overwrite of list entries starting at position `s`. -/
def overwriteSeq {α : Type} : List α → List α → Nat → List α
  | l, [], _ => l
  | l, x :: rest, s => overwriteSeq (l.set s x) rest (s + 1)

/-- Steps 3 and 6 of `to_batch` (data.py lines 801-806 and 840-845): copy
each source sequence of records into the batch sequence at the running
offset. -/
def copyAttrsStep (big : List AttrRec) : List (List AttrRec) → Nat → List AttrRec
  | [], _ => big
  | a :: rest, cnt => copyAttrsStep (overwriteSeq big a cnt) rest (cnt + a.length)

/-- `stack_edge_indices` inside `to_batch` (data.py lines 809-822). -/
def stackEdges : List GraphData → Int → List Int × List Int
  | [], _ => ([], [])
  | g :: rest, off =>
    let r := stackEdges rest (off + (g.get_node_num : Int))
    (g.edge_src.map (fun s => s + off) ++ r.1,
     g.edge_tgt.map (fun t => t + off) ++ r.2)

/-- The `batch` vector (data.py lines 849-854): graph ordinal repeated once
per node, in graph order. -/
def nodeToGraph (G : List GraphData) : List Nat :=
  (G.enum.map (fun p => List.replicate p.2.get_node_num p.1)).join

/-- `to_batch` (data.py lines 757-858). -/
def to_batch (graphs : List GraphData) : Except Err GraphData := do
  if graphs.isEmpty then .error .assertionError
  else
    let total : Nat := (graphs.map GraphData.get_node_num).sum
    let big0 : GraphData := { GraphData.init with is_batch := true }
    let big1 ← big0.add_nodes (total : Int)
    let big2 ← setNodeFeatsFold big1 (gatherFeats (graphs.map GraphData.node_features))
    let big3 : GraphData := { big2 with
      node_attributes :=
        copyAttrsStep big2.node_attributes (graphs.map GraphData.node_attributes) 0 }
    let se := stackEdges graphs 0
    let big4 ← big3.add_edges se.1 se.2
    let big5 ← setEdgeFeatsFold big4 (gatherFeats (graphs.map GraphData.edge_features))
    let big6 : GraphData := { big5 with
      edge_attributes :=
        copyAttrsStep big5.edge_attributes (graphs.map GraphData.edge_attributes) 0 }
    .ok { big6 with
      batch_size := some graphs.length,
      batch := some (nodeToGraph graphs),
      batch_num_nodes := some (graphs.map GraphData.get_node_num),
      batch_num_edges := some (graphs.map GraphData.get_edge_num) }

/-- Subscripting a possibly-`None` Python list: `None[i]` is a `TypeError`,
an out-of-range index an `IndexError`. -/
def optGet (ol : Option (List Nat)) (i : Nat) : Except Err Nat :=
  match ol with
  | none => .error .typeError
  | some l =>
    match l[i]? with
    | some v => .ok v
    | none => .error .indexError

/-- Subscripting the result list of `from_batch`. -/
def listGetG (ret : List GraphData) (i : Nat) : Except Err GraphData :=
  match ret[i]? with
  | some g => .ok g
  | none => .error .indexError

/-- The construction loop of `from_batch` (data.py lines 884-893). -/
def buildChildren (nn mm : Option (List Nat)) (allE : List (Int × Int)) :
    List Nat → Nat → Nat → Except Err (List GraphData)
  | [], _, _ => .ok []
  | i :: rest, cn, ce => do
    let ni ← optGet nn i
    let mi ← optGet mm i
    let g1 ← GraphData.init.add_nodes (ni : Int)
    let edges := (allE.drop ce).take mi
    let g2 ← g1.add_edges (edges.map (fun e => e.1 - (cn : Int)))
                          (edges.map (fun e => e.2 - (cn : Int)))
    let rest' ← buildChildren nn mm allE rest (cn + ni) (ce + mi)
    .ok (g2 :: rest')

/-- The inner per-graph loop of the node-feature restoring step of
`from_batch` (data.py lines 897-902), for one feature tensor; the view
assignment is a full-range `set_node_features` as in `setNodeFeatsFold`. -/
def assignNodeFeatOne (k : String) (v : Tensor) (nn : Option (List Nat)) :
    List Nat → Nat → List GraphData → Except Err (List GraphData)
  | [], _, ret => .ok ret
  | i :: rest, cum, ret => do
    let ni ← optGet nn i
    let gi ← listGetG ret i
    let gi' ← gi.set_node_features (.sl none none none)
       [(k, ⟨v.width, (v.rows.drop cum).take ni⟩)]
    assignNodeFeatOne k v nn rest (cum + ni) (ret.set i gi')

/-- The node-feature restoring step of `from_batch` (data.py lines
897-902). -/
def assignNodeFeats (nn : Option (List Nat)) (bs : Nat) :
    FeatTable → List GraphData → Except Err (List GraphData)
  | [], ret => .ok ret
  | (_, none) :: rest, ret => assignNodeFeats nn bs rest ret
  | (k, some v) :: rest, ret => do
    let ret' ← assignNodeFeatOne k v nn (List.range bs) 0 ret
    assignNodeFeats nn bs rest ret'

/-- The inner per-graph loop of the edge-feature restoring step of
`from_batch` (data.py lines 904-909). -/
def assignEdgeFeatOne (k : String) (v : Tensor) (mm : Option (List Nat)) :
    List Nat → Nat → List GraphData → Except Err (List GraphData)
  | [], _, ret => .ok ret
  | i :: rest, cum, ret => do
    let mi ← optGet mm i
    let gi ← listGetG ret i
    let gi' ← gi.set_edge_feature (.sl none none none)
       [(k, ⟨v.width, (v.rows.drop cum).take mi⟩)]
    assignEdgeFeatOne k v mm rest (cum + mi) (ret.set i gi')

/-- The edge-feature restoring step of `from_batch` (data.py lines
904-909). -/
def assignEdgeFeats (mm : Option (List Nat)) (bs : Nat) :
    FeatTable → List GraphData → Except Err (List GraphData)
  | [], ret => .ok ret
  | (_, none) :: rest, ret => assignEdgeFeats mm bs rest ret
  | (k, some v) :: rest, ret => do
    let ret' ← assignEdgeFeatOne k v mm (List.range bs) 0 ret
    assignEdgeFeats mm bs rest ret'

/-- Reading the contiguous block `[a, a+len)` of a Python list by
individual indexing: out of range is an `IndexError`. -/
def sliceList {α : Type} (l : List α) (a len : Nat) : Except Err (List α) :=
  if a + len ≤ l.length then .ok ((l.drop a).take len) else .error .indexError

/-- The attribute-restoring loop of `from_batch` (data.py lines 911-921). -/
def assignAttrs (bn be : List AttrRec) (nn mm : Option (List Nat)) :
    List Nat → Nat → Nat → List GraphData → Except Err (List GraphData)
  | [], _, _, ret => .ok ret
  | i :: rest, cn, ce, ret => do
    let ni ← optGet nn i
    let mi ← optGet mm i
    let gi ← listGetG ret i
    let ns ← sliceList bn cn ni
    let es ← sliceList be ce mi
    let gi' : GraphData := { gi with
      node_attributes := overwriteSeq gi.node_attributes ns 0,
      edge_attributes := overwriteSeq gi.edge_attributes es 0 }
    assignAttrs bn be nn mm rest (cn + ni) (ce + mi) (ret.set i gi')

/-- `from_batch` (data.py lines 861-923).  Iterating `range(batch_size)`
with `batch_size` equal to `None` is the `TypeError` Python raises. -/
def from_batch (batch : GraphData) : Except Err (List GraphData) := do
  match batch.batch_size with
  | none => .error .typeError
  | some bs =>
    let ret1 ← buildChildren batch.batch_num_nodes batch.batch_num_edges
      batch.get_all_edges (List.range bs) 0 0
    let ret2 ← assignNodeFeats batch.batch_num_nodes bs batch.node_features ret1
    let ret3 ← assignEdgeFeats batch.batch_num_edges bs batch.edge_features ret2
    assignAttrs batch.node_attributes batch.edge_attributes
      batch.batch_num_nodes batch.batch_num_edges (List.range bs) 0 0 ret3

/-- The spec invariants I1-I3 for a single graph, together with the
structural facts the Python object keeps implicit (parallel endpoint
arrays, unique dictionary keys): endpoints lie in `[0, node_count)`,
endpoint pairs are pairwise distinct, every present feature array has one
row per owned element, and the graph has at least one node (`add_nodes`
refuses a non-positive count, so a graph of a batch always has one). -/
def WFgraph (g : GraphData) : Prop :=
  g.edge_tgt.length = g.edge_src.length ∧
  (∀ p ∈ g.edge_src.zip g.edge_tgt,
    0 ≤ p.1 ∧ p.1 < (g.get_node_num : Int) ∧ 0 ≤ p.2 ∧ p.2 < (g.get_node_num : Int)) ∧
  (g.edge_src.zip g.edge_tgt).Nodup ∧
  (∀ kv ∈ g.node_features, ∀ t ∈ kv.2, t.rows.length = g.get_node_num) ∧
  (∀ kv ∈ g.edge_features, ∀ t ∈ kv.2, t.rows.length = g.get_edge_num) ∧
  (g.node_features.map Prod.fst).Nodup ∧
  (g.edge_features.map Prod.fst).Nodup ∧
  g.edge_attributes.length = g.get_edge_num ∧
  1 ≤ g.get_node_num

/-- Cross-graph coherence of the feature tables of a list of graphs: a
name carried with a tensor on any graph is at least registered on every
graph, and two tensors under the same name have the same trailing shape. -/
def Coherent (G : List GraphData) : Prop :=
  (∀ g₁ ∈ G, ∀ g₂ ∈ G, ∀ kv ∈ g₁.node_features, ∀ _t ∈ kv.2,
    (tlookup g₂.node_features kv.1).isSome) ∧
  (∀ g₁ ∈ G, ∀ g₂ ∈ G, ∀ kv ∈ g₁.edge_features, ∀ _t ∈ kv.2,
    (tlookup g₂.edge_features kv.1).isSome) ∧
  (∀ g₁ ∈ G, ∀ g₂ ∈ G, ∀ kv₁ ∈ g₁.node_features, ∀ kv₂ ∈ g₂.node_features,
    kv₁.1 = kv₂.1 → ∀ t₁ ∈ kv₁.2, ∀ t₂ ∈ kv₂.2, t₁.width = t₂.width) ∧
  (∀ g₁ ∈ G, ∀ g₂ ∈ G, ∀ kv₁ ∈ g₁.edge_features, ∀ kv₂ ∈ g₂.edge_features,
    kv₁.1 = kv₂.1 → ∀ t₁ ∈ kv₁.2, ∀ t₂ ∈ kv₂.2, t₁.width = t₂.width)

/-- The feature name `k` is present (non-absent) on the node table of every
graph of `G`. -/
def AllPresentN (G : List GraphData) (k : String) : Prop :=
  ∀ g ∈ G, ∃ t : Tensor, tlookup g.node_features k = some (some t)

/-- The feature name `k` is present (non-absent) on the edge table of every
graph of `G`. -/
def AllPresentE (G : List GraphData) (k : String) : Prop :=
  ∀ g ∈ G, ∃ t : Tensor, tlookup g.edge_features k = some (some t)

/-- Extract the graph of a successful call (used only to name concrete
instances in closed statements). -/
def getOk (x : Except Err GraphData) : GraphData :=
  x.toOption.getD GraphData.init

/-- A concrete graph: two nodes, no edges. -/
def wA : GraphData := getOk (GraphData.init.add_nodes 2)

/-- A concrete graph: two nodes, the edge `(0, 1)`, a node feature `x` of
width 1. -/
def wB : GraphData := getOk (do
  let g ← GraphData.init.add_nodes 2
  let g ← g.add_edge 0 1
  g.set_node_features (.sl none none none) [("x", ⟨1, [[1], [2]]⟩)])

/-- A concrete graph: one node, the self-loop `(0, 0)`, a node feature `x`
of width 1. -/
def wD : GraphData := getOk (do
  let g ← GraphData.init.add_nodes 1
  let g ← g.add_edge 0 0
  g.set_node_features (.sl none none none) [("x", ⟨1, [[9]]⟩)])

/-- A concrete graph: one node, one self-loop, no extra features. -/
def wE : GraphData := getOk (do
  let g ← GraphData.init.add_nodes 1
  g.add_edge 0 0)

/-- The full-range slice `slice(None, None, None)`. -/
def fullSlice : Sel := .sl none none none

/-- A concrete graph: one node, no edges. -/
def wF : GraphData := getOk (GraphData.init.add_nodes 1)

/-- A concrete graph: two nodes, the edge `(0, 1)`, an edge feature `ef`
of width 2. -/
def wG : GraphData := getOk (do
  let g ← GraphData.init.add_nodes 2
  let g ← g.add_edge 0 1
  g.set_edge_feature (.sl none none none) [("ef", ⟨2, [[1, 2]]⟩)])

/-- The graph produced by `add_edge(5, 0)` on a one-node graph (the call
the claim says must fail). -/
def gOut : GraphData := getOk (wF.add_edge 5 0)

/-- The graph produced by `add_edges([0,0,1], [1,1,0])` on a two-node
graph (an in-call duplicate of the pair `(0, 1)`). -/
def gBug : GraphData := getOk (wA.add_edges [0, 0, 1] [1, 1, 0])

/-- The rows stored for node feature `k` on `g`, the empty list when the
feature is absent or unregistered. -/
def nodeRowsOf (g : GraphData) (k : String) : List (List Int) :=
  match tlookup g.node_features k with
  | some (some t) => t.rows
  | _ => []

/-- The rows stored for edge feature `k` on `g`, the empty list when the
feature is absent or unregistered. -/
def edgeRowsOf (g : GraphData) (k : String) : List (List Int) :=
  match tlookup g.edge_features k with
  | some (some t) => t.rows
  | _ => []

/-- Total node count of a list of graphs. -/
def sumN (G : List GraphData) : Nat := (G.map GraphData.get_node_num).sum

/-- Total edge count of a list of graphs. -/
def sumE (G : List GraphData) : Nat := (G.map GraphData.get_edge_num).sum

/-- Specification helper: the entries `to_batch` actually carries into the
batch table — those gathered names whose value list has no `None`, paired
with the concatenated tensor. -/
def carriedOf (entries : List (String × List (Option Tensor))) :
    List (String × Tensor) :=
  entries.filterMap (fun e =>
    if none ∈ e.2 then none
    else match catTensors e.2.reduceOption with
      | .ok t => some (e.1, t)
      | .error _ => none)

/-- Specification helper: sequentially write the given name-tensor pairs
into a feature table. -/
def applyCarried (tb : FeatTable) (ps : List (String × Tensor)) : FeatTable :=
  ps.foldl (fun acc e => tableSet acc e.1 (some e.2)) tb

/-- Specification helper: the graph `from_batch` rebuilds for source graph
`g` before features and attributes are copied back. -/
def childOf (g : GraphData) : GraphData :=
  { GraphData.init with
    node_attributes := List.replicate g.get_node_num initNodeAttr,
    node_features := padTable initNodeFeatures g.get_node_num,
    edge_src := g.edge_src,
    edge_tgt := g.edge_tgt,
    nids_eid_mapping :=
      (g.edge_src.zip g.edge_tgt).enumFrom 0 |>.map (fun q => (q.2, q.1)),
    edge_attributes := List.replicate g.get_edge_num initEdgeAttr }

/-- Specification helper: the batch graph `to_batch` produces from a
well-formed coherent list of graphs (proved in `to_batch_spec`). -/
def expectedBatch (G : List GraphData) : GraphData where
  node_attributes := (G.map GraphData.node_attributes).join
  node_features :=
    applyCarried (padTable initNodeFeatures (sumN G))
      (carriedOf (gatherFeats (G.map GraphData.node_features)))
  edge_src := (stackEdges G 0).1
  edge_tgt := (stackEdges G 0).2
  nids_eid_mapping :=
    (((stackEdges G 0).1.zip (stackEdges G 0).2).enumFrom 0).map
      (fun q => (q.2, q.1))
  edge_features :=
    applyCarried initEdgeFeatures
      (carriedOf (gatherFeats (G.map GraphData.edge_features)))
  edge_attributes := (G.map GraphData.edge_attributes).join
  is_batch := true
  batch := some (nodeToGraph G)
  batch_size := some G.length
  batch_num_nodes := some (G.map GraphData.get_node_num)
  batch_num_edges := some (G.map GraphData.get_edge_num)

/-- Well-formedness of a single graph is decidable (used to discharge the
hypotheses of round-trip statements on concrete graphs). -/
instance (g : GraphData) : Decidable (WFgraph g) := by
  unfold WFgraph
  exact inferInstance

/-- Coherence of a list of graphs is decidable. -/
instance (G : List GraphData) : Decidable (Coherent G) := by
  unfold Coherent
  exact inferInstance

deriving instance DecidableEq for Except

/-! ### Dictionary and padding lemmas -/

theorem tlookup_padTable (tb : FeatTable) (name : String) (k : Nat) :
    tlookup (padTable tb k) name
      = (tlookup tb name).map (fun v => entail_zero_padding v k) := by
  induction tb with
  | nil => rfl
  | cons kv rest ih =>
    obtain ⟨k0, v⟩ := kv
    by_cases h : k0 = name
    · simp [padTable, tlookup, h]
    · simpa [padTable, tlookup, h] using ih

theorem keys_padTable (tb : FeatTable) (k : Nat) :
    (padTable tb k).map Prod.fst = tb.map Prod.fst := by
  induction tb with
  | nil => rfl
  | cons kv rest ih => simp [padTable]

theorem mlookup_append_some {m : EidMap} (m' : EidMap) {p : Int × Int} {e : Nat}
    (h : mlookup m p = some e) : mlookup (m ++ m') p = some e := by
  induction m with
  | nil => simp [mlookup] at h
  | cons q rest ih =>
    obtain ⟨q1, q2⟩ := q
    by_cases hq : q1 = p
    · simp only [mlookup, List.cons_append, if_pos hq] at h ⊢
      exact h
    · simp only [mlookup, List.cons_append, if_neg hq] at h ⊢
      exact ih h

theorem mlookup_append_none {m : EidMap} (m' : EidMap) {p : Int × Int}
    (h : mlookup m p = none) : mlookup (m ++ m') p = mlookup m' p := by
  induction m with
  | nil => simp
  | cons q rest ih =>
    obtain ⟨q1, q2⟩ := q
    by_cases hq : q1 = p
    · simp [mlookup, hq] at h
    · simp only [mlookup, List.cons_append, if_neg hq] at h ⊢
      exact ih h

theorem tlookup_tableSet_self (tb : FeatTable) (k : String) (v : Option Tensor) :
    tlookup (tableSet tb k v) k = some v := by
  induction tb with
  | nil => simp [tableSet, tlookup]
  | cons kv rest ih =>
    obtain ⟨k0, v0⟩ := kv
    by_cases h : k0 = k
    · simp [tableSet, tlookup, h]
    · simpa [tableSet, tlookup, h] using ih

theorem tlookup_tableSet_ne (tb : FeatTable) {k k0 : String} (v : Option Tensor)
    (h : k0 ≠ k) : tlookup (tableSet tb k0 v) k = tlookup tb k := by
  induction tb with
  | nil => simp [tableSet, tlookup, h]
  | cons kv rest ih =>
    obtain ⟨k1, v1⟩ := kv
    by_cases h1 : k1 = k0
    · simp [tableSet, tlookup, h1, h]
    · simp only [tableSet, if_neg h1, tlookup]
      rw [ih]

theorem mem_tableSet {tb : FeatTable} {k : String} {v : Option Tensor}
    {kv : String × Option Tensor} (h : kv ∈ tableSet tb k v) :
    (kv.1 = k ∧ kv.2 = v) ∨ kv ∈ tb := by
  induction tb with
  | nil =>
    simp [tableSet] at h
    subst h; exact Or.inl ⟨rfl, rfl⟩
  | cons kv0 rest ih =>
    obtain ⟨k0, v0⟩ := kv0
    by_cases h0 : k0 = k
    · simp only [tableSet, if_pos h0, List.mem_cons] at h
      rcases h with h | h
      · subst h; exact Or.inl ⟨h0, rfl⟩
      · exact Or.inr (List.mem_cons_of_mem _ h)
    · simp only [tableSet, if_neg h0, List.mem_cons] at h
      rcases h with h | h
      · exact Or.inr (by simp [h])
      · rcases ih h with h' | h'
        · exact Or.inl h'
        · exact Or.inr (List.mem_cons_of_mem _ h')

theorem keys_tableSet_of_isSome {tb : FeatTable} {k : String} (v : Option Tensor)
    (h : (tlookup tb k).isSome) :
    (tableSet tb k v).map Prod.fst = tb.map Prod.fst := by
  induction tb with
  | nil => simp [tlookup] at h
  | cons kv rest ih =>
    obtain ⟨k0, v0⟩ := kv
    by_cases h0 : k0 = k
    · simp [tableSet, h0]
    · simp only [tlookup, if_neg h0] at h
      simpa [tableSet, h0] using ih h

theorem keys_tableSet_of_none {tb : FeatTable} {k : String} (v : Option Tensor)
    (h : tlookup tb k = none) :
    (tableSet tb k v).map Prod.fst = tb.map Prod.fst ++ [k] := by
  induction tb with
  | nil => simp [tableSet]
  | cons kv rest ih =>
    obtain ⟨k0, v0⟩ := kv
    by_cases h0 : k0 = k
    · simp [tlookup, h0] at h
    · simp only [tlookup, if_neg h0] at h
      simpa [tableSet, h0] using ih h

theorem tlookup_isSome_iff (tb : FeatTable) (k : String) :
    (tlookup tb k).isSome ↔ k ∈ tb.map Prod.fst := by
  induction tb with
  | nil => simp [tlookup]
  | cons kv rest ih =>
    obtain ⟨k0, v0⟩ := kv
    by_cases h0 : k0 = k
    · simp [tlookup, h0]
    · simp [tlookup, h0, ih, Ne.symm h0]

theorem mem_of_tlookup {tb : FeatTable} {k : String} {v : Option Tensor}
    (h : tlookup tb k = some v) : (k, v) ∈ tb := by
  induction tb with
  | nil => simp [tlookup] at h
  | cons kv rest ih =>
    obtain ⟨k0, v0⟩ := kv
    by_cases h0 : k0 = k
    · simp only [tlookup, if_pos h0] at h
      subst h0
      simp [← Option.some_inj.mp h]
    · simp only [tlookup, if_neg h0] at h
      exact List.mem_cons_of_mem _ (ih h)

theorem tlookup_of_mem_nodup {tb : FeatTable} (hnd : (tb.map Prod.fst).Nodup)
    {kv : String × Option Tensor} (h : kv ∈ tb) : tlookup tb kv.1 = some kv.2 := by
  induction tb with
  | nil => simp at h
  | cons kv0 rest ih =>
    obtain ⟨k0, v0⟩ := kv0
    simp only [List.map_cons, List.nodup_cons] at hnd
    rcases List.mem_cons.mp h with h | h
    · subst h; simp [tlookup]
    · have hne : k0 ≠ kv.1 := by
        intro he
        exact hnd.1 (he ▸ (List.mem_map.mpr ⟨kv, h, rfl⟩))
      simp only [tlookup, if_neg hne]
      exact ih hnd.2 h

/-! ### Slice, `add_edge` and full-range write lemmas -/

theorem sliceIdxList_full_length (n : Nat) :
    (sliceIdxList none none none n).length = n := by
  have h : sliceIdxList none none none n
      = (List.range (if (n : Int) ≤ 0 then 0
            else (((n : Int) - 0 - 1) / 1 + 1).toNat)).map
          (fun j => 0 + 1 * Int.ofNat j) := rfl
  rw [h, List.length_map, List.length_range]
  split
  · omega
  · rw [show ((n : Int) - 0 - 1) = (n : Int) - 1 by ring, Int.ediv_one]
    omega

theorem fullCover_fullSlice (n : Nat) : fullCover fullSlice n = true := by
  simp [fullCover, fullSlice, sliceIdxList_full_length]

/-- The endpoint guard of `add_edge` is unsatisfiable (the target clause
demands `tgt < 0` and `tgt ≥ node_count ≥ 0` at once), so the branch that
raises is dead code. -/
theorem add_edge_eq (g : GraphData) (s t : Int) :
    g.add_edge s t =
      if (mlookup g.nids_eid_mapping (s, t)).isSome then .ok g
      else .ok { g with
        nids_eid_mapping := g.nids_eid_mapping ++ [((s, t), g.get_edge_num)],
        edge_src := g.edge_src ++ [s],
        edge_tgt := g.edge_tgt ++ [t],
        edge_attributes := g.edge_attributes ++ [initEdgeAttr],
        edge_features := padTable g.edge_features 1 } := by
  unfold GraphData.add_edge
  rw [if_neg]
  rintro ⟨-, h2, h3⟩
  omega

theorem add_edge_of_dup {g : GraphData} {s t : Int}
    (h : (mlookup g.nids_eid_mapping (s, t)).isSome) : g.add_edge s t = .ok g := by
  rw [add_edge_eq, if_pos h]

theorem add_edge_fresh {g : GraphData} {s t : Int}
    (h : mlookup g.nids_eid_mapping (s, t) = none) :
    g.add_edge s t = .ok { g with
      nids_eid_mapping := g.nids_eid_mapping ++ [((s, t), g.get_edge_num)],
      edge_src := g.edge_src ++ [s],
      edge_tgt := g.edge_tgt ++ [t],
      edge_attributes := g.edge_attributes ++ [initEdgeAttr],
      edge_features := padTable g.edge_features 1 } := by
  rw [add_edge_eq, if_neg (by simp [h])]

theorem add_edge_dup_mem {g : GraphData} {s t : Int} {g' : GraphData}
    (h : g.add_edge s t = .ok g') : (mlookup g'.nids_eid_mapping (s, t)).isSome := by
  rw [add_edge_eq] at h
  by_cases hd : (mlookup g.nids_eid_mapping (s, t)).isSome
  · rw [if_pos hd] at h
    cases h
    exact hd
  · rw [if_neg hd] at h
    cases h
    have hm : mlookup g.nids_eid_mapping (s, t) = none :=
      Option.not_isSome_iff_eq_none.mp hd
    simp [mlookup_append_none _ hm, mlookup]

theorem add_nodes_ok (g : GraphData) {k : Int} (hk : 0 < k) :
    g.add_nodes k = .ok { g with
      node_attributes := g.node_attributes ++ List.replicate k.toNat initNodeAttr,
      node_features := padTable g.node_features k.toNat } := by
  unfold GraphData.add_nodes
  rw [if_neg (by omega)]

/-- A full-range single-feature write: both the brand-new and the existing
branch replace the stored array. -/
theorem set_node_features_full (g : GraphData) (k : String) (v : Tensor)
    (h : v.rows.length = g.get_node_num) :
    g.set_node_features fullSlice [(k, v)] =
      .ok { g with node_features := tableSet g.node_features k (some v) } := by
  unfold GraphData.set_node_features
  rw [if_neg]
  · by_cases hnew : isNewFeat g.node_features k
    · simp [List.foldlM, h, hnew]
    · simp [List.foldlM, h, hnew, fullSlice]
  · simp [fullCover_fullSlice, h]

theorem set_edge_feature_full (g : GraphData) (k : String) (v : Tensor)
    (h : v.rows.length = g.get_edge_num) :
    g.set_edge_feature fullSlice [(k, v)] =
      .ok { g with edge_features := tableSet g.edge_features k (some v) } := by
  unfold GraphData.set_edge_feature
  rw [if_neg]
  · by_cases hnew : isNewFeat g.edge_features k
    · simp [List.foldlM, h, hnew]
    · simp [List.foldlM, h, hnew, fullSlice]
  · simp [fullCover_fullSlice, h]

/-! ### Claims C1, C2, C6, C7, C10 -/

/-- **C2** (code bug): the endpoint guard of `add_edge` joins its two
clauses with `and`, and the target clause (`tgt < 0 and tgt >= n`) is
self-contradictory, so an out-of-range endpoint is never rejected: on a
one-node graph, `add_edge(5, 0)` raises nothing and appends the edge
`(5, 0)` — the claim (and the docstring of `add_edge`) demand a
`ValueError` before any mutation.  `add_edges` carries the same guard. -/
theorem c2_out_of_range_endpoint_not_rejected :
    wF.get_node_num = 1 ∧
    wF.add_edge 5 0 = .ok gOut ∧
    gOut.get_edge_num = 1 ∧
    gOut.get_all_edges = [(5, 0)] ∧
    wF.add_edges [5] [0] = .ok gOut := by decide

/-- **C1** (code bug): `add_edges` registers a fresh pair at
`current_num_edges + i` where `i` counts positions in the argument list
including skipped duplicates, so after `add_edges([0,0,1], [1,1,0])` on a
two-node graph the map sends `(1, 0)` to edge id 2 although that pair is
stored at edge id 1 and the graph has only 2 edges: `edge_index_map` and
the endpoint list disagree. -/
theorem c1_add_edges_breaks_edge_index_map :
    wA.add_edges [0, 0, 1] [1, 1, 0] = .ok gBug ∧
    gBug.get_edge_num = 2 ∧
    gBug.get_all_edges = [(0, 1), (1, 0)] ∧
    mlookup gBug.nids_eid_mapping (1, 0) = some 2 := by decide

/-- **C10** (confirmed): a newly constructed graph already registers
`node_feat` and `node_emb` in its node table and `edge_feat`, `edge_emb`
and `edge_weight` in its edge table, all mapped to absent; reading
features returns these names mapped to `None` for any selector, and
feature-name enumeration lists them although nothing was ever set. -/
theorem c10_initial_feature_registry :
    GraphData.init.node_feature_names = ["node_feat", "node_emb"] ∧
    GraphData.init.get_edge_feature_names
      = ["edge_feat", "edge_emb", "edge_weight"] ∧
    tlookup GraphData.init.node_features "node_feat" = some none ∧
    tlookup GraphData.init.node_features "node_emb" = some none ∧
    tlookup GraphData.init.edge_features "edge_feat" = some none ∧
    tlookup GraphData.init.edge_features "edge_emb" = some none ∧
    tlookup GraphData.init.edge_features "edge_weight" = some none ∧
    (∀ sel : Sel, GraphData.init.get_node_features sel
      = .ok [("node_feat", none), ("node_emb", none)]) ∧
    (∀ es : List Int, GraphData.init.get_edge_feature es
      = .ok [("edge_feat", none), ("edge_emb", none), ("edge_weight", none)]) := by
  refine ⟨by decide, by decide, by decide, by decide, by decide, by decide,
    by decide, fun sel => rfl, fun es => rfl⟩

/-- **C7** (confirmed): after a successful `add_edge(s, t)` with in-range
endpoints, a second `add_edge(s, t)` hits the duplicate branch, raises
nothing and returns the graph unchanged, so the edge count and the id
stored for `(s, t)` are unchanged. -/
theorem c7_duplicate_add_edge_idempotent (g : GraphData) (s t : Int)
    (g' : GraphData)
    (_hs0 : 0 ≤ s) (_hs1 : s < (g.get_node_num : Int))
    (_ht0 : 0 ≤ t) (_ht1 : t < (g.get_node_num : Int))
    (h : g.add_edge s t = .ok g') :
    g'.add_edge s t = .ok g' :=
  add_edge_of_dup (add_edge_dup_mem h)

theorem c7_witness :
    (0 : Int) ≤ 0 ∧ (0 : Int) < (wA.get_node_num : Int) ∧
    (0 : Int) ≤ 1 ∧ (1 : Int) < (wA.get_node_num : Int) ∧
    (getOk (wA.add_edge 0 1)).add_edge 0 1 = .ok (getOk (wA.add_edge 0 1)) :=
  ⟨by decide, by decide, by decide, by decide,
    c7_duplicate_add_edge_idempotent wA 0 1 (getOk (wA.add_edge 0 1))
      (by decide) (by decide) (by decide) (by decide) (by decide)⟩

/-- **C6** (confirmed): `add_nodes(k)` with `k > 0` extends every present
node feature by exactly `k` zero rows of its trailing shape, leaves absent
features absent, and grows the node count by `k`; a genuinely new edge
likewise pads every present edge feature with one zero row. -/
theorem c6_growth_padding :
    (∀ (g : GraphData) (k : Int) (g' : GraphData) (name : String) (t : Tensor),
      0 < k → g.add_nodes k = .ok g' →
      (tlookup g.node_features name = some (some t) →
        tlookup g'.node_features name
          = some (some ⟨t.width,
              t.rows ++ List.replicate k.toNat (List.replicate t.width 0)⟩)) ∧
      (tlookup g.node_features name = some none →
        tlookup g'.node_features name = some none) ∧
      g'.get_node_num = g.get_node_num + k.toNat) ∧
    (∀ (g : GraphData) (s t2 : Int) (g' : GraphData) (name : String) (u : Tensor),
      mlookup g.nids_eid_mapping (s, t2) = none → g.add_edge s t2 = .ok g' →
      (tlookup g.edge_features name = some (some u) →
        tlookup g'.edge_features name
          = some (some ⟨u.width, u.rows ++ [List.replicate u.width 0]⟩)) ∧
      (tlookup g.edge_features name = some none →
        tlookup g'.edge_features name = some none) ∧
      g'.get_edge_num = g.get_edge_num + 1) := by
  constructor
  · intro g k g' name t hk h
    rw [add_nodes_ok g hk] at h
    injection h with h
    subst h
    refine ⟨?_, ?_, ?_⟩
    · intro hl
      rw [tlookup_padTable, hl]
      rfl
    · intro hl
      rw [tlookup_padTable, hl]
      rfl
    · simp [GraphData.get_node_num]
  · intro g s t2 g' name u hf h
    rw [add_edge_fresh hf] at h
    injection h with h
    subst h
    refine ⟨?_, ?_, ?_⟩
    · intro hl
      rw [tlookup_padTable, hl]
      rfl
    · intro hl
      rw [tlookup_padTable, hl]
      rfl
    · simp [GraphData.get_edge_num]

theorem c6_witness :
    tlookup (getOk (wD.add_nodes 2)).node_features "x"
      = some (some ⟨1, [[9], [0], [0]]⟩) ∧
    tlookup (getOk (wG.add_edge 1 0)).edge_features "ef"
      = some (some ⟨2, [[1, 2], [0, 0]]⟩) := by
  constructor
  · exact (c6_growth_padding.1 wD 2 (getOk (wD.add_nodes 2)) "x" ⟨1, [[9]]⟩
      (by decide) (by decide)).1 (by decide)
  · exact (c6_growth_padding.2 wG 1 0 (getOk (wG.add_edge 1 0)) "ef" ⟨2, [[1, 2]]⟩
      (by decide) (by decide)).1 (by decide)

/-! ### Claims C5 and C8 -/

/-- **C5** (counterexample): on a two-node graph with the present feature
`x`, updating `x` through the selector `slice(0, 1)` — which denotes
exactly one node — with a one-row array fails, although the claim says a
subset update succeeds exactly when the array length equals the selected
count: the code asserts the length against the *total* node count. -/
theorem c5_counterexample :
    wB.set_node_features (.sl (some 0) (some 1) none) [("x", ⟨1, [[9]]⟩)]
      = .error .assertionError ∧
    (sliceIdxList (some 0) (some 1) none wB.get_node_num).length = 1 := by decide

/-- **C5** (corrected): a write to an already-present feature checks the
new array's leading length against the graph's *total* element count (an
assertion), not against the selected count; with the full-range selector
`slice(None, None, None)` and a matching length, the stored array is
replaced outright, which allows a feature-width change.  The node and edge
paths behave alike. -/
theorem c5_feature_update_requires_total_length :
    (∀ (g : GraphData) (sel : Sel) (k : String) (v t : Tensor),
      tlookup g.node_features k = some (some t) →
      v.rows.length ≠ g.get_node_num →
      g.set_node_features sel [(k, v)] = .error .assertionError) ∧
    (∀ (g : GraphData) (k : String) (v t : Tensor),
      tlookup g.node_features k = some (some t) →
      v.rows.length = g.get_node_num →
      g.set_node_features fullSlice [(k, v)]
        = .ok { g with node_features := tableSet g.node_features k (some v) }) ∧
    (∀ (g : GraphData) (sel : Sel) (k : String) (v t : Tensor),
      tlookup g.edge_features k = some (some t) →
      v.rows.length ≠ g.get_edge_num →
      g.set_edge_feature sel [(k, v)] = .error .assertionError) ∧
    (∀ (g : GraphData) (k : String) (v t : Tensor),
      tlookup g.edge_features k = some (some t) →
      v.rows.length = g.get_edge_num →
      g.set_edge_feature fullSlice [(k, v)]
        = .ok { g with edge_features := tableSet g.edge_features k (some v) }) := by
  refine ⟨?_, ?_, ?_, ?_⟩
  · intro g sel k v t hl hv
    have hnew : isNewFeat g.node_features k = false := by simp [isNewFeat, hl]
    unfold GraphData.set_node_features
    rw [if_neg (by simp [hnew])]
    simp only [List.foldlM, if_pos hv]
    rfl
  · intro g k v t hl hv
    exact set_node_features_full g k v hv
  · intro g sel k v t hl hv
    have hnew : isNewFeat g.edge_features k = false := by simp [isNewFeat, hl]
    unfold GraphData.set_edge_feature
    rw [if_neg (by simp [hnew])]
    simp only [List.foldlM, if_pos hv]
    rfl
  · intro g k v t hl hv
    exact set_edge_feature_full g k v hv

theorem c5_witness :
    wB.set_node_features (.idx 0) [("x", ⟨1, [[9]]⟩)] = .error .assertionError ∧
    wB.set_node_features fullSlice [("x", ⟨3, [[1, 2, 3], [4, 5, 6]]⟩)]
      = .ok { wB with
          node_features :=
            tableSet wB.node_features "x" (some ⟨3, [[1, 2, 3], [4, 5, 6]]⟩) } := by
  constructor
  · exact c5_feature_update_requires_total_length.1 wB (.idx 0) "x"
      ⟨1, [[9]]⟩ ⟨1, [[1], [2]]⟩ (by decide) (by decide)
  · exact c5_feature_update_requires_total_length.2.1 wB "x"
      ⟨3, [[1, 2, 3], [4, 5, 6]]⟩ ⟨1, [[1], [2]]⟩ (by decide) (by decide)

/-- **C8** (counterexample): writing the brand-new edge feature `y` with
the integer selector `0` on a one-edge graph raises
`SizeMismatchException`, not the `ValueError` of the node path the claim
announces for both tables. -/
theorem c8_counterexample :
    wE.set_edge_feature (.idx 0) [("y", ⟨1, [[1]]⟩)] = .error .sizeMismatch ∧
    Err.sizeMismatch ≠ Err.valueError := by decide

/-- **C8** (corrected): a brand-new feature write whose selector does not
cover the full current range is rejected before any modification —
with `ValueError` on the node table but with `SizeMismatchException` on
the edge table; a full-range write with a matching length succeeds and the
array becomes the full storage. -/
theorem c8_new_feature_coverage :
    (∀ (g : GraphData) (sel : Sel) (k : String) (v : Tensor),
      isNewFeat g.node_features k = true →
      fullCover sel g.get_node_num = false →
      g.set_node_features sel [(k, v)] = .error .valueError) ∧
    (∀ (g : GraphData) (k : String) (v : Tensor),
      isNewFeat g.node_features k = true →
      v.rows.length = g.get_node_num →
      g.set_node_features fullSlice [(k, v)]
        = .ok { g with node_features := tableSet g.node_features k (some v) }) ∧
    (∀ (g : GraphData) (sel : Sel) (k : String) (v : Tensor),
      isNewFeat g.edge_features k = true →
      fullCover sel g.get_edge_num = false →
      g.set_edge_feature sel [(k, v)] = .error .sizeMismatch) ∧
    (∀ (g : GraphData) (k : String) (v : Tensor),
      isNewFeat g.edge_features k = true →
      v.rows.length = g.get_edge_num →
      g.set_edge_feature fullSlice [(k, v)]
        = .ok { g with edge_features := tableSet g.edge_features k (some v) }) := by
  refine ⟨?_, ?_, ?_, ?_⟩
  · intro g sel k v hnew hfc
    unfold GraphData.set_node_features
    rw [if_pos (by simp [hnew, hfc])]
  · intro g k v _hnew hv
    exact set_node_features_full g k v hv
  · intro g sel k v hnew hfc
    unfold GraphData.set_edge_feature
    rw [if_pos (by simp [hnew, hfc])]
  · intro g k v _hnew hv
    exact set_edge_feature_full g k v hv

theorem c8_witness :
    wF.set_node_features (.idx 0) [("z", ⟨1, [[7]]⟩)] = .error .valueError ∧
    wF.set_node_features fullSlice [("z", ⟨1, [[7]]⟩)]
      = .ok { wF with
          node_features := tableSet wF.node_features "z" (some ⟨1, [[7]]⟩) } ∧
    wE.set_edge_feature (.lst [0]) [("y", ⟨1, [[1]]⟩)] = .error .sizeMismatch ∧
    wE.set_edge_feature fullSlice [("y", ⟨1, [[1]]⟩)]
      = .ok { wE with
          edge_features := tableSet wE.edge_features "y" (some ⟨1, [[1]]⟩) } := by
  refine ⟨?_, ?_, ?_, ?_⟩
  · exact c8_new_feature_coverage.1 wF (.idx 0) "z" ⟨1, [[7]]⟩ (by decide) (by decide)
  · exact c8_new_feature_coverage.2.1 wF "z" ⟨1, [[7]]⟩ (by decide) (by decide)
  · exact c8_new_feature_coverage.2.2.1 wE (.lst [0]) "y" ⟨1, [[1]]⟩ (by decide) (by decide)
  · exact c8_new_feature_coverage.2.2.2 wE "y" ⟨1, [[1]]⟩ (by decide) (by decide)

/-! ### Gathering and carried-entry lemmas -/

theorem mem_dedupAux (l : List String) :
    ∀ (seen : List String) (x : String),
      x ∈ dedupAux l seen ↔ x ∈ l ∧ x ∉ seen := by
  induction l with
  | nil => intro seen x; simp [dedupAux]
  | cons k rest ih =>
    intro seen x
    by_cases hk : k ∈ seen
    · rw [dedupAux, if_pos hk, ih]
      constructor
      · rintro ⟨h1, h2⟩
        exact ⟨List.mem_cons_of_mem _ h1, h2⟩
      · rintro ⟨h1, h2⟩
        rcases List.mem_cons.mp h1 with h | h
        · subst h; exact absurd hk h2
        · exact ⟨h, h2⟩
    · rw [dedupAux, if_neg hk]
      constructor
      · intro h
        rcases List.mem_cons.mp h with h | h
        · subst h; exact ⟨List.mem_cons_self _ _, hk⟩
        · rcases (ih _ _).mp h with ⟨h1, h2⟩
          have : x ≠ k := by
            intro he; subst he
            exact h2 (List.mem_cons_self _ _)
          exact ⟨List.mem_cons_of_mem _ h1, fun hx => h2 (List.mem_cons_of_mem _ hx)⟩
      · rintro ⟨h1, h2⟩
        rcases List.mem_cons.mp h1 with h | h
        · subst h; exact List.mem_cons_self _ _
        · by_cases hxk : x = k
          · subst hxk; exact List.mem_cons_self _ _
          · exact List.mem_cons_of_mem _
              ((ih _ _).mpr ⟨h, fun hx => (List.mem_cons.mp hx).elim hxk h2⟩)

theorem nodup_dedupAux (l : List String) :
    ∀ seen : List String, (dedupAux l seen).Nodup := by
  induction l with
  | nil => intro seen; simp [dedupAux]
  | cons k rest ih =>
    intro seen
    by_cases hk : k ∈ seen
    · rw [dedupAux, if_pos hk]; exact ih seen
    · rw [dedupAux, if_neg hk]
      refine List.nodup_cons.mpr ⟨?_, ih _⟩
      intro hmem
      exact ((mem_dedupAux rest _ k).mp hmem).2 (List.mem_cons_self _ _)

theorem map_fst_keyed (f : String → List (Option Tensor)) (names : List String) :
    (names.map (fun k => (k, f k))).map Prod.fst = names := by
  induction names with
  | nil => rfl
  | cons k rest ih => simp [ih]

theorem gatherFeats_keys (tables : List FeatTable) :
    (gatherFeats tables).map Prod.fst
      = dedupAux ((tables.map (fun tb => tb.map Prod.fst)).join) [] :=
  map_fst_keyed _ _

theorem gatherFeats_keys_nodup (tables : List FeatTable) :
    ((gatherFeats tables).map Prod.fst).Nodup := by
  rw [gatherFeats_keys]; exact nodup_dedupAux _ _

theorem mem_gatherFeats {tables : List FeatTable}
    {e : String × List (Option Tensor)} (h : e ∈ gatherFeats tables) :
    e.2 = tables.filterMap (fun tb => tlookup tb e.1) := by
  rcases List.mem_map.mp h with ⟨k, _, hk⟩
  cases hk
  rfl

theorem mem_gatherFeats_keys {tables : List FeatTable} {k : String} :
    k ∈ (gatherFeats tables).map Prod.fst
      ↔ ∃ tb ∈ tables, (tlookup tb k).isSome := by
  rw [gatherFeats_keys, mem_dedupAux]
  constructor
  · rintro ⟨h, -⟩
    rcases List.mem_join.mp h with ⟨names, hnames, hk⟩
    rcases List.mem_map.mp hnames with ⟨tb, htb, rfl⟩
    exact ⟨tb, htb, (tlookup_isSome_iff tb k).mpr hk⟩
  · rintro ⟨tb, htb, hk⟩
    refine ⟨?_, by simp⟩
    exact List.mem_join.mpr ⟨tb.map Prod.fst,
      List.mem_map.mpr ⟨tb, htb, rfl⟩, (tlookup_isSome_iff tb k).mp hk⟩

theorem gatherFeats_mem_of_key {tables : List FeatTable} {k : String}
    (h : k ∈ (gatherFeats tables).map Prod.fst) :
    (k, tables.filterMap (fun tb => tlookup tb k)) ∈ gatherFeats tables := by
  rcases List.mem_map.mp h with ⟨e, he, hk⟩
  have := mem_gatherFeats he
  subst hk
  rw [← this]
  exact he

/-! ### `applyCarried` lemmas -/

theorem applyCarried_cons (tb : FeatTable) (p : String × Tensor)
    (ps : List (String × Tensor)) :
    applyCarried tb (p :: ps) = applyCarried (tableSet tb p.1 (some p.2)) ps := rfl

theorem tlookup_applyCarried_not_mem {ps : List (String × Tensor)} :
    ∀ {tb : FeatTable} {k : String}, k ∉ ps.map Prod.fst →
      tlookup (applyCarried tb ps) k = tlookup tb k := by
  induction ps with
  | nil => intro tb k _; rfl
  | cons p rest ih =>
    intro tb k hk
    simp only [List.map_cons, List.mem_cons, not_or] at hk
    rw [applyCarried_cons, ih hk.2, tlookup_tableSet_ne _ _ (fun h => hk.1 h.symm)]

theorem tlookup_applyCarried_mem {ps : List (String × Tensor)} :
    ∀ {tb : FeatTable} {p : String × Tensor}, (ps.map Prod.fst).Nodup →
      p ∈ ps → tlookup (applyCarried tb ps) p.1 = some (some p.2) := by
  induction ps with
  | nil => intro tb p _ h; simp at h
  | cons q rest ih =>
    intro tb p hnd hp
    simp only [List.map_cons, List.nodup_cons] at hnd
    rcases List.mem_cons.mp hp with h | h
    · subst h
      rw [applyCarried_cons,
        tlookup_applyCarried_not_mem hnd.1, tlookup_tableSet_self]
    · rw [applyCarried_cons]
      exact ih hnd.2 h

theorem mem_applyCarried {ps : List (String × Tensor)} :
    ∀ {tb : FeatTable} {kv : String × Option Tensor},
      kv ∈ applyCarried tb ps →
      (∃ p ∈ ps, kv.1 = p.1 ∧ kv.2 = some p.2) ∨ kv ∈ tb := by
  induction ps with
  | nil => intro tb kv h; exact Or.inr h
  | cons q rest ih =>
    intro tb kv h
    rw [applyCarried_cons] at h
    rcases ih h with h' | h'
    · rcases h' with ⟨p, hp, h1, h2⟩
      exact Or.inl ⟨p, List.mem_cons_of_mem _ hp, h1, h2⟩
    · rcases mem_tableSet h' with ⟨h1, h2⟩ | h''
      · exact Or.inl ⟨q, List.mem_cons_self _ _, h1, h2⟩
      · exact Or.inr h''

theorem keys_applyCarried_nodup {ps : List (String × Tensor)} :
    ∀ {tb : FeatTable}, (tb.map Prod.fst).Nodup →
      ((applyCarried tb ps).map Prod.fst).Nodup := by
  induction ps with
  | nil => intro tb h; exact h
  | cons q rest ih =>
    intro tb h
    rw [applyCarried_cons]
    refine ih ?_
    by_cases hq : (tlookup tb q.1).isSome
    · rw [keys_tableSet_of_isSome _ hq]; exact h
    · rw [keys_tableSet_of_none _ (Option.not_isSome_iff_eq_none.mp hq)]
      refine List.Nodup.append h (List.nodup_singleton _) ?_
      intro x hx hx1
      have hx2 := List.mem_singleton.mp hx1
      subst hx2
      exact hq ((tlookup_isSome_iff tb _).mpr hx)

theorem keys_carriedOf_sublist (entries : List (String × List (Option Tensor))) :
    List.Sublist ((carriedOf entries).map Prod.fst) (entries.map Prod.fst) := by
  induction entries with
  | nil => simp [carriedOf]
  | cons e rest ih =>
    simp only [carriedOf, List.filterMap_cons] at ih ⊢
    by_cases he : none ∈ e.2
    · rw [if_pos he]
      exact ih.cons _
    · rw [if_neg he]
      cases hc : catTensors e.2.reduceOption with
      | ok t =>
        simp only [List.map_cons]
        exact List.Sublist.cons₂ _ ih
      | error err => exact ih.cons _

theorem mem_carriedOf {entries : List (String × List (Option Tensor))}
    {p : String × Tensor} (h : p ∈ carriedOf entries) :
    ∃ e ∈ entries, e.1 = p.1 ∧ none ∉ e.2
      ∧ catTensors e.2.reduceOption = .ok p.2 := by
  rcases List.mem_filterMap.mp h with ⟨e, he, hfe⟩
  by_cases hn : none ∈ e.2
  · rw [if_pos hn] at hfe; cases hfe
  · rw [if_neg hn] at hfe
    cases hc : catTensors e.2.reduceOption with
    | ok t =>
      rw [hc] at hfe
      cases hfe
      exact ⟨e, he, rfl, hn, hc⟩
    | error err => rw [hc] at hfe; cases hfe

theorem carriedOf_mem_of {entries : List (String × List (Option Tensor))}
    {e : String × List (Option Tensor)} {t : Tensor} (he : e ∈ entries)
    (hn : none ∉ e.2) (hc : catTensors e.2.reduceOption = .ok t) :
    (e.1, t) ∈ carriedOf entries :=
  List.mem_filterMap.mpr ⟨e, he, by rw [if_neg hn, hc]⟩

/-! ### `catTensors` and the feature-folding steps of `to_batch` -/

theorem fullSlice_def : Sel.sl none none none = fullSlice := rfl

theorem except_ok_bind {α β : Type} (a : α) (f : α → Except Err β) :
    (Except.ok a >>= f) = f a := rfl

theorem catTensors_ok {ts : List Tensor} {w : Nat} (hne : ts ≠ [])
    (hw : ∀ u ∈ ts, u.width = w) :
    catTensors ts = .ok ⟨w, (ts.map Tensor.rows).join⟩ := by
  cases ts with
  | nil => exact absurd rfl hne
  | cons t rest =>
    have ht : t.width = w := hw t (List.mem_cons_self _ _)
    have hall : rest.all (fun u => u.width == t.width) = true := by
      rw [List.all_eq_true]
      intro u hu
      rw [beq_iff_eq, hw u (List.mem_cons_of_mem _ hu), ht]
    rw [catTensors, if_pos hall]
    rw [ht]
    rfl

theorem catTensors_ok_inv {ts : List Tensor} {t : Tensor}
    (h : catTensors ts = .ok t) :
    t.rows = (ts.map Tensor.rows).join ∧ ∀ u ∈ ts, u.width = t.width := by
  cases ts with
  | nil => cases h
  | cons hd rest =>
    by_cases hall : rest.all (fun u => u.width == hd.width) = true
    · rw [catTensors, if_pos hall] at h
      injection h with h
      subst h
      refine ⟨rfl, ?_⟩
      intro u hu
      rcases List.mem_cons.mp hu with h | h
      · subst h; rfl
      · exact beq_iff_eq.mp (List.all_eq_true.mp hall u h)
    · rw [catTensors, if_neg hall] at h
      cases h

theorem setNodeFeatsFold_ok :
    ∀ (entries : List (String × List (Option Tensor))) (g : GraphData),
      (∀ e ∈ entries, none ∉ e.2 →
        ∃ t, catTensors e.2.reduceOption = .ok t
          ∧ t.rows.length = g.get_node_num) →
      setNodeFeatsFold g entries
        = .ok { g with node_features :=
            applyCarried g.node_features (carriedOf entries) } := by
  intro entries
  induction entries with
  | nil => intro g _; rfl
  | cons e rest ih =>
    intro g h
    obtain ⟨k, v⟩ := e
    by_cases hn : none ∈ v
    · rw [show setNodeFeatsFold g ((k, v) :: rest) = setNodeFeatsFold g rest from by
        simp only [setNodeFeatsFold, if_pos hn]]
      rw [ih g (fun e' he' => h e' (List.mem_cons_of_mem _ he'))]
      have hcarr : carriedOf ((k, v) :: rest) = carriedOf rest := by
        simp only [carriedOf, List.filterMap_cons, if_pos hn]
      rw [hcarr]
    · obtain ⟨t, hc, hlen⟩ := h (k, v) (List.mem_cons_self _ _) hn
      have hcarr : carriedOf ((k, v) :: rest) = (k, t) :: carriedOf rest := by
        simp only [carriedOf, List.filterMap_cons, if_neg hn, hc]
      have hih := ih { g with node_features := tableSet g.node_features k (some t) }
        (fun e' he' => h e' (List.mem_cons_of_mem _ he'))
      simp only [setNodeFeatsFold, if_neg hn, hc, except_ok_bind, fullSlice_def,
        set_node_features_full g k t hlen, hih, hcarr, applyCarried_cons]

theorem setEdgeFeatsFold_ok :
    ∀ (entries : List (String × List (Option Tensor))) (g : GraphData),
      (∀ e ∈ entries, none ∉ e.2 →
        ∃ t, catTensors e.2.reduceOption = .ok t
          ∧ t.rows.length = g.get_edge_num) →
      setEdgeFeatsFold g entries
        = .ok { g with edge_features :=
            applyCarried g.edge_features (carriedOf entries) } := by
  intro entries
  induction entries with
  | nil => intro g _; rfl
  | cons e rest ih =>
    intro g h
    obtain ⟨k, v⟩ := e
    by_cases hn : none ∈ v
    · rw [show setEdgeFeatsFold g ((k, v) :: rest) = setEdgeFeatsFold g rest from by
        simp only [setEdgeFeatsFold, if_pos hn]]
      rw [ih g (fun e' he' => h e' (List.mem_cons_of_mem _ he'))]
      have hcarr : carriedOf ((k, v) :: rest) = carriedOf rest := by
        simp only [carriedOf, List.filterMap_cons, if_pos hn]
      rw [hcarr]
    · obtain ⟨t, hc, hlen⟩ := h (k, v) (List.mem_cons_self _ _) hn
      have hcarr : carriedOf ((k, v) :: rest) = (k, t) :: carriedOf rest := by
        simp only [carriedOf, List.filterMap_cons, if_neg hn, hc]
      have hih := ih { g with edge_features := tableSet g.edge_features k (some t) }
        (fun e' he' => h e' (List.mem_cons_of_mem _ he'))
      simp only [setEdgeFeatsFold, if_neg hn, hc, except_ok_bind, fullSlice_def,
        set_edge_feature_full g k t hlen, hih, hcarr, applyCarried_cons]

/-! ### Attribute-copy and clean `add_edges` lemmas -/

theorem overwriteSeq_length {α : Type} :
    ∀ (xs l : List α) (s : Nat), (overwriteSeq l xs s).length = l.length := by
  intro xs
  induction xs with
  | nil => intro l s; rfl
  | cons x rest ih =>
    intro l s
    rw [overwriteSeq, ih, List.length_set]

theorem overwriteSeq_getElem {α : Type} :
    ∀ (xs l : List α) (s : Nat), s + xs.length ≤ l.length →
      ∀ j, (overwriteSeq l xs s)[j]?
        = if s ≤ j ∧ j < s + xs.length then xs[j - s]? else l[j]? := by
  intro xs
  induction xs with
  | nil =>
    intro l s _ j
    rw [if_neg (by simp only [List.length_nil]; omega)]
    rfl
  | cons x rest ih =>
    intro l s h j
    simp only [List.length_cons] at h
    have hs : s < l.length := by omega
    rw [overwriteSeq, ih (l.set s x) (s + 1) (by simp only [List.length_set]; omega) j]
    by_cases h1 : s + 1 ≤ j ∧ j < s + 1 + rest.length
    · rw [if_pos h1, if_pos (by simp only [List.length_cons]; omega)]
      rw [show j - s = (j - (s + 1)) + 1 by omega]
      rw [List.getElem?_cons_succ]
    · rw [if_neg h1]
      by_cases h2 : j = s
      · subst h2
        rw [if_pos (by simp only [List.length_cons]; omega)]
        rw [List.getElem?_set_self hs]
        simp
      · rw [List.getElem?_set_ne (show s ≠ j from fun he => h2 he.symm),
          if_neg (by simp only [List.length_cons]; omega)]

theorem overwriteSeq_full {α : Type} (l xs : List α) (h : xs.length = l.length) :
    overwriteSeq l xs 0 = xs := by
  apply List.ext_getElem?
  intro j
  rw [overwriteSeq_getElem xs l 0 (by omega) j]
  by_cases hj : j < xs.length
  · rw [if_pos (by omega)]
    simp
  · rw [if_neg (by omega)]
    rw [List.getElem?_eq_none (by omega), List.getElem?_eq_none (by omega)]

theorem overwriteSeq_append {α : Type} :
    ∀ (xs ys l : List α) (s : Nat),
      overwriteSeq l (xs ++ ys) s
        = overwriteSeq (overwriteSeq l xs s) ys (s + xs.length) := by
  intro xs
  induction xs with
  | nil => intro ys l s; simp [overwriteSeq]
  | cons x rest ih =>
    intro ys l s
    have harith : s + (x :: rest).length = s + 1 + rest.length := by
      simp only [List.length_cons]; omega
    rw [List.cons_append, overwriteSeq, overwriteSeq, ih, harith]

theorem copyAttrsStep_eq :
    ∀ (L : List (List AttrRec)) (big : List AttrRec) (cnt : Nat),
      copyAttrsStep big L cnt = overwriteSeq big L.join cnt := by
  intro L
  induction L with
  | nil => intro big cnt; rfl
  | cons a rest ih =>
    intro big cnt
    rw [copyAttrsStep, ih]
    rw [show (a :: rest).join = a ++ rest.join from rfl]
    rw [overwriteSeq_append]

theorem markDups_fresh :
    ∀ (pairs : List (Int × Int)) (m : EidMap) (base i : Nat),
      pairs.Nodup → (∀ p ∈ pairs, mlookup m p = none) →
      markDups pairs m base i
        = (m ++ (pairs.enumFrom i).map (fun q => (q.2, base + q.1)), []) := by
  intro pairs
  induction pairs with
  | nil => intro m base i _ _; simp [markDups]
  | cons p rest ih =>
    intro m base i hnd hf
    have hp : mlookup m p = none := hf p (List.mem_cons_self _ _)
    rw [markDups, if_neg (by simp [hp])]
    rw [ih (m ++ [(p, base + i)]) base (i + 1) (List.nodup_cons.mp hnd).2 ?fresh]
    · rw [List.enumFrom_cons]
      simp [List.append_assoc]
    case fresh =>
      intro q hq
      have hq0 : mlookup m q = none := hf q (List.mem_cons_of_mem _ hq)
      rw [mlookup_append_none _ hq0]
      have hne : q ≠ p := fun he => (List.nodup_cons.mp hnd).1 (he ▸ hq)
      simp [mlookup, Ne.symm hne]

theorem removeIdxs_nil {α : Type} (l : List α) : removeIdxs l [] = l := by
  unfold removeIdxs
  have h : (l.enum.filter (fun p => !(([] : List Nat).contains p.1))) = l.enum := by
    apply List.filter_eq_self.mpr
    intro a _
    rfl
  rw [h, List.enum_map_snd]

theorem check_and_expand_eq_len {src tgt : List Int}
    (h : src.length = tgt.length) :
    check_and_expand src tgt = .ok (src, tgt) := by
  unfold check_and_expand
  rw [if_pos h]

theorem add_edges_clean (g : GraphData) (src tgt : List Int)
    (hlen : src.length = tgt.length)
    (hnd : (src.zip tgt).Nodup)
    (hfresh : ∀ p ∈ src.zip tgt, mlookup g.nids_eid_mapping p = none) :
    g.add_edges src tgt = .ok { g with
      nids_eid_mapping := g.nids_eid_mapping
        ++ ((src.zip tgt).enumFrom 0).map
             (fun q => (q.2, g.edge_attributes.length + q.1)),
      edge_src := g.edge_src ++ src,
      edge_tgt := g.edge_tgt ++ tgt,
      edge_attributes :=
        g.edge_attributes ++ List.replicate src.length initEdgeAttr,
      edge_features := padTable g.edge_features src.length } := by
  have hany : (src.zip tgt).any
      (fun p => decide ((p.1 < 0 ∨ p.1 ≥ (g.get_node_num : Int))
        ∧ (p.2 < 0 ∧ p.2 ≥ (g.get_node_num : Int)))) = false := by
    rw [List.any_eq_false]
    intro p _
    simp only [decide_eq_true_eq]
    rintro ⟨-, h1, h2⟩
    omega
  unfold GraphData.add_edges
  rw [check_and_expand_eq_len hlen, except_ok_bind]
  dsimp only
  rw [if_neg (fun hne => hne hlen), hany]
  rw [if_neg Bool.false_ne_true]
  rw [markDups_fresh (src.zip tgt) g.nids_eid_mapping g.edge_attributes.length 0
    hnd hfresh]
  rw [removeIdxs_nil, removeIdxs_nil]

/-! ### Stacked-edge lemmas -/

theorem stackEdges_src_length :
    ∀ (G : List GraphData) (off : Int),
      (stackEdges G off).1.length = sumE G := by
  intro G
  induction G with
  | nil => intro off; rfl
  | cons g rest ih =>
    intro off
    simp only [stackEdges, List.length_append, List.length_map, ih, sumE,
      List.map_cons, List.sum_cons]
    rfl

theorem stackEdges_tgt_length :
    ∀ (G : List GraphData) (off : Int),
      (∀ g ∈ G, g.edge_tgt.length = g.edge_src.length) →
      (stackEdges G off).2.length = sumE G := by
  intro G
  induction G with
  | nil => intro off _; rfl
  | cons g rest ih =>
    intro off h
    simp only [stackEdges, List.length_append, List.length_map,
      ih _ (fun g' hg' => h g' (List.mem_cons_of_mem _ hg')), sumE,
      List.map_cons, List.sum_cons]
    rw [h g (List.mem_cons_self _ _)]
    rfl

theorem stackEdges_zip_cons (g : GraphData) (R : List GraphData) (off : Int)
    (hlen : g.edge_tgt.length = g.edge_src.length) :
    (stackEdges (g :: R) off).1.zip (stackEdges (g :: R) off).2
      = ((g.edge_src.zip g.edge_tgt).map
           (Prod.map (fun s => s + off) (fun t => t + off)))
        ++ ((stackEdges R (off + (g.get_node_num : Int))).1.zip
            (stackEdges R (off + (g.get_node_num : Int))).2) := by
  show ((g.edge_src.map (fun s => s + off)) ++ _).zip
      ((g.edge_tgt.map (fun t => t + off)) ++ _) = _
  rw [List.zip_append (by simp [hlen])]
  rw [List.zip_map]

theorem stackEdges_zip_bounds :
    ∀ (G : List GraphData) (off : Int),
      (∀ g ∈ G, g.edge_tgt.length = g.edge_src.length) →
      (∀ g ∈ G, ∀ p ∈ g.edge_src.zip g.edge_tgt,
        0 ≤ p.1 ∧ p.1 < (g.get_node_num : Int)
          ∧ 0 ≤ p.2 ∧ p.2 < (g.get_node_num : Int)) →
      ∀ q ∈ (stackEdges G off).1.zip (stackEdges G off).2,
        off ≤ q.1 ∧ q.1 < off + (sumN G : Int)
          ∧ off ≤ q.2 ∧ q.2 < off + (sumN G : Int) := by
  intro G
  induction G with
  | nil => intro off _ _ q hq; simp [stackEdges] at hq
  | cons g rest ih =>
    intro off hlen hrange q hq
    rw [stackEdges_zip_cons g rest off (hlen g (List.mem_cons_self _ _))] at hq
    have hsum : (sumN (g :: rest) : Int)
        = (g.get_node_num : Int) + (sumN rest : Int) := by
      simp [sumN]
    rcases List.mem_append.mp hq with h | h
    · rcases List.mem_map.mp h with ⟨p, hp, rfl⟩
      have := hrange g (List.mem_cons_self _ _) p hp
      have hr : (0 : Int) ≤ (sumN rest : Int) := Int.ofNat_nonneg _
      simp only [Prod.map] at *
      constructor
      · omega
      · constructor
        · omega
        · constructor <;> omega
    · have := ih (off + (g.get_node_num : Int))
        (fun g' hg' => hlen g' (List.mem_cons_of_mem _ hg'))
        (fun g' hg' => hrange g' (List.mem_cons_of_mem _ hg')) q h
      have hg0 : (0 : Int) ≤ (g.get_node_num : Int) := Int.ofNat_nonneg _
      constructor
      · omega
      · constructor
        · omega
        · constructor <;> omega

theorem stackEdges_zip_nodup :
    ∀ (G : List GraphData) (off : Int),
      (∀ g ∈ G, g.edge_tgt.length = g.edge_src.length) →
      (∀ g ∈ G, ∀ p ∈ g.edge_src.zip g.edge_tgt,
        0 ≤ p.1 ∧ p.1 < (g.get_node_num : Int)
          ∧ 0 ≤ p.2 ∧ p.2 < (g.get_node_num : Int)) →
      (∀ g ∈ G, (g.edge_src.zip g.edge_tgt).Nodup) →
      ((stackEdges G off).1.zip (stackEdges G off).2).Nodup := by
  intro G
  induction G with
  | nil => intro off _ _ _; simp [stackEdges]
  | cons g rest ih =>
    intro off hlen hrange hnd
    rw [stackEdges_zip_cons g rest off (hlen g (List.mem_cons_self _ _))]
    refine List.Nodup.append ?_ ?_ ?_
    · refine List.Nodup.map ?_ (hnd g (List.mem_cons_self _ _))
      intro a b hab
      cases a; cases b
      simp only [Prod.map, Prod.mk.injEq] at hab
      obtain ⟨h1, h2⟩ := hab
      simp only [Prod.mk.injEq]
      omega
    · exact ih _ (fun g' hg' => hlen g' (List.mem_cons_of_mem _ hg'))
        (fun g' hg' => hrange g' (List.mem_cons_of_mem _ hg'))
        (fun g' hg' => hnd g' (List.mem_cons_of_mem _ hg'))
    · intro q hq1 hq2
      rcases List.mem_map.mp hq1 with ⟨p, hp, rfl⟩
      have h1 := hrange g (List.mem_cons_self _ _) p hp
      have h2 := stackEdges_zip_bounds rest (off + (g.get_node_num : Int))
        (fun g' hg' => hlen g' (List.mem_cons_of_mem _ hg'))
        (fun g' hg' => hrange g' (List.mem_cons_of_mem _ hg')) _ hq2
      simp only [Prod.map] at h2
      omega

/-! ### Presence-coherence lemmas for the gathered features -/

theorem allPresent_of_gather {G : List GraphData} {f : GraphData → FeatTable}
    {k : String}
    (hcoh : ∀ g₁ ∈ G, ∀ g₂ ∈ G, ∀ kv ∈ f g₁, ∀ _t ∈ kv.2,
      (tlookup (f g₂) kv.1).isSome)
    (hsome : ∃ g ∈ G, (tlookup (f g) k).isSome)
    (hnone : none ∉ G.filterMap (fun g => tlookup (f g) k)) :
    ∀ g ∈ G, ∃ t, tlookup (f g) k = some (some t) := by
  obtain ⟨g0, hg0, hs⟩ := hsome
  obtain ⟨v0, hv0⟩ := Option.isSome_iff_exists.mp hs
  have hmem0 : v0 ∈ G.filterMap (fun g => tlookup (f g) k) :=
    List.mem_filterMap.mpr ⟨g0, hg0, hv0⟩
  have hne0 : v0 ≠ none := fun he => hnone (he ▸ hmem0)
  obtain ⟨t0, rfl⟩ := Option.ne_none_iff_exists'.mp hne0
  intro g hg
  have hkv : (k, some t0) ∈ f g0 := mem_of_tlookup hv0
  have hs2 := hcoh g0 hg0 g hg (k, some t0) hkv t0 rfl
  obtain ⟨v, hv⟩ := Option.isSome_iff_exists.mp hs2
  have hvm : v ∈ G.filterMap (fun g => tlookup (f g) k) :=
    List.mem_filterMap.mpr ⟨g, hg, hv⟩
  have hne : v ≠ none := fun he => hnone (he ▸ hvm)
  obtain ⟨t, rfl⟩ := Option.ne_none_iff_exists'.mp hne
  exact ⟨t, hv⟩

theorem gather_none_not_mem {G : List GraphData} {f : GraphData → FeatTable}
    {k : String} (hall : ∀ g ∈ G, ∃ t, tlookup (f g) k = some (some t)) :
    none ∉ G.filterMap (fun g => tlookup (f g) k) := by
  intro hmem
  rcases List.mem_filterMap.mp hmem with ⟨g, hg, heq⟩
  rcases hall g hg with ⟨t, ht⟩
  rw [ht] at heq
  cases heq

theorem reduce_gather_rows {f : GraphData → FeatTable} {k : String} :
    ∀ {G : List GraphData},
      (∀ g ∈ G, ∃ t, tlookup (f g) k = some (some t)) →
      ((G.filterMap (fun g => tlookup (f g) k)).reduceOption).map Tensor.rows
        = G.map (fun g => match tlookup (f g) k with
            | some (some t) => t.rows
            | _ => []) := by
  intro G
  induction G with
  | nil => intro _; rfl
  | cons g rest ih =>
    intro hall
    obtain ⟨t, ht⟩ := hall g (List.mem_cons_self _ _)
    rw [List.filterMap_cons]
    rw [ht]
    rw [List.reduceOption_cons_of_some]
    simp only [List.map_cons, ht]
    rw [ih (fun g' hg' => hall g' (List.mem_cons_of_mem _ hg'))]

theorem mem_reduce_gather {G : List GraphData} {f : GraphData → FeatTable}
    {k : String} {u : Tensor}
    (h : u ∈ (G.filterMap (fun g => tlookup (f g) k)).reduceOption) :
    ∃ g ∈ G, tlookup (f g) k = some (some u) := by
  have := List.reduceOption_mem_iff.mp h
  rcases List.mem_filterMap.mp this with ⟨g, hg, heq⟩
  exact ⟨g, hg, heq⟩

theorem reduce_gather_ne_nil {G : List GraphData} {f : GraphData → FeatTable}
    {k : String} {g0 : GraphData} (hg0 : g0 ∈ G)
    (hall : ∀ g ∈ G, ∃ t, tlookup (f g) k = some (some t)) :
    (G.filterMap (fun g => tlookup (f g) k)).reduceOption ≠ [] := by
  obtain ⟨t, ht⟩ := hall g0 hg0
  intro hnil
  have : t ∈ (G.filterMap (fun g => tlookup (f g) k)).reduceOption :=
    List.reduceOption_mem_iff.mpr (List.mem_filterMap.mpr ⟨g0, hg0, ht⟩)
  rw [hnil] at this
  cases this

/-- The central fact about one gathered feature entry whose value list has
no `None`: concatenation succeeds, its rows are the per-graph blocks in
order, its length is the summed element count, and the name is present on
every graph with a uniform width. -/
theorem gather_entry_cat {G : List GraphData} {f : GraphData → FeatTable}
    {c : GraphData → Nat} {k : String} {v : List (Option Tensor)}
    (hne : G ≠ [])
    (hcoh : ∀ g₁ ∈ G, ∀ g₂ ∈ G, ∀ kv ∈ f g₁, ∀ _t ∈ kv.2,
      (tlookup (f g₂) kv.1).isSome)
    (hwidth : ∀ g₁ ∈ G, ∀ g₂ ∈ G, ∀ kv₁ ∈ f g₁, ∀ kv₂ ∈ f g₂,
      kv₁.1 = kv₂.1 → ∀ t₁ ∈ kv₁.2, ∀ t₂ ∈ kv₂.2, t₁.width = t₂.width)
    (hlen : ∀ g ∈ G, ∀ kv ∈ f g, ∀ t ∈ kv.2, t.rows.length = c g)
    (hkeys : ∀ g ∈ G, (f g |>.map Prod.fst).Nodup)
    (he : (k, v) ∈ gatherFeats (G.map f)) (hn : none ∉ v) :
    ∃ t, catTensors v.reduceOption = .ok t
      ∧ t.rows.length = (G.map c).sum
      ∧ t.rows = (G.map (fun g => match tlookup (f g) k with
          | some (some u) => u.rows
          | _ => [])).join
      ∧ (∀ g ∈ G, ∀ u, tlookup (f g) k = some (some u) → u.width = t.width)
      ∧ (∀ g ∈ G, ∃ u, tlookup (f g) k = some (some u)) := by
  have hv : v = G.filterMap (fun g => tlookup (f g) k) := by
    have h1 := mem_gatherFeats he
    dsimp only at h1
    rw [h1, List.filterMap_map]
    rfl
  subst hv
  have hkmem : k ∈ (gatherFeats (G.map f)).map Prod.fst :=
    List.mem_map.mpr ⟨_, he, rfl⟩
  have hsome : ∃ g ∈ G, (tlookup (f g) k).isSome := by
    rcases mem_gatherFeats_keys.mp hkmem with ⟨tb, htb, hs⟩
    rcases List.mem_map.mp htb with ⟨g, hg, rfl⟩
    exact ⟨g, hg, hs⟩
  have hall : ∀ g ∈ G, ∃ t, tlookup (f g) k = some (some t) :=
    allPresent_of_gather hcoh hsome hn
  obtain ⟨g0, hg0⟩ : ∃ g0, g0 ∈ G := by
    cases G with
    | nil => exact absurd rfl hne
    | cons g rest => exact ⟨g, List.mem_cons_self _ _⟩
  obtain ⟨t0, ht0⟩ := hall g0 hg0
  have hwid : ∀ u ∈ (G.filterMap (fun g => tlookup (f g) k)).reduceOption,
      u.width = t0.width := by
    intro u hu
    rcases mem_reduce_gather hu with ⟨g, hg, hgl⟩
    exact hwidth g hg g0 hg0 (k, some u) (mem_of_tlookup hgl)
      (k, some t0) (mem_of_tlookup ht0) rfl u rfl t0 rfl
  have hcat := catTensors_ok (reduce_gather_ne_nil hg0 hall) hwid
  refine ⟨_, hcat, ?_, ?_, ?_, hall⟩
  · show ((((G.filterMap fun g => tlookup (f g) k).reduceOption).map
        Tensor.rows).join).length = (G.map c).sum
    rw [reduce_gather_rows hall]
    rw [List.length_join]
    congr 1
    rw [List.map_map]
    apply List.map_congr_left
    intro g hg
    obtain ⟨t, ht⟩ := hall g hg
    simp only [Function.comp, ht]
    exact hlen g hg (k, some t) (mem_of_tlookup ht) t rfl
  · show (((G.filterMap fun g => tlookup (f g) k).reduceOption).map
        Tensor.rows).join = _
    rw [reduce_gather_rows hall]
  · intro g hg u hu
    have : u ∈ (G.filterMap (fun g => tlookup (f g) k)).reduceOption :=
      List.reduceOption_mem_iff.mpr (List.mem_filterMap.mpr ⟨g, hg, hu⟩)
    exact hwid u this

/-- `to_batch` on a nonempty list of well-formed, feature-coherent graphs
produces exactly the batch graph described by `expectedBatch`. -/
theorem to_batch_spec (G : List GraphData) (hne : G ≠ [])
    (hwf : ∀ g ∈ G, WFgraph g) (hcoh : Coherent G) :
    to_batch G = .ok (expectedBatch G) := by
  obtain ⟨hcN, hcE, hwN, hwE⟩ := hcoh
  have hlenT : ∀ g ∈ G, g.edge_tgt.length = g.edge_src.length :=
    fun g hg => (hwf g hg).1
  have hrange := fun g hg => (hwf g hg).2.1
  have hndP : ∀ g ∈ G, (g.edge_src.zip g.edge_tgt).Nodup :=
    fun g hg => (hwf g hg).2.2.1
  have hnfl := fun g hg => (hwf g hg).2.2.2.1
  have hefl := fun g hg => (hwf g hg).2.2.2.2.1
  have hnk := fun g hg => (hwf g hg).2.2.2.2.2.1
  have hek := fun g hg => (hwf g hg).2.2.2.2.2.2.1
  have heal : ∀ g ∈ G, g.edge_attributes.length = g.get_edge_num :=
    fun g hg => (hwf g hg).2.2.2.2.2.2.2.1
  have htot : 1 ≤ (G.map GraphData.get_node_num).sum := by
    cases G with
    | nil => exact absurd rfl hne
    | cons g rest =>
      have := (hwf g (List.mem_cons_self _ _)).2.2.2.2.2.2.2.2
      simp only [List.map_cons, List.sum_cons]
      omega
  have hisEmpty : G.isEmpty = false := by
    cases G with
    | nil => exact absurd rfl hne
    | cons g rest => rfl
  have hfoldN : ∀ (gg : GraphData), gg.get_node_num = sumN G →
      ∀ e ∈ gatherFeats (G.map GraphData.node_features), none ∉ e.2 →
      ∃ t, catTensors e.2.reduceOption = .ok t
        ∧ t.rows.length = gg.get_node_num := by
    intro gg hgg e he hn
    obtain ⟨k, v⟩ := e
    obtain ⟨t, hcat, hlen2, -, -, -⟩ :=
      gather_entry_cat (c := GraphData.get_node_num) hne hcN hwN hnfl hnk he hn
    exact ⟨t, hcat, by rw [hgg]; exact hlen2⟩
  have hfoldE : ∀ (gg : GraphData), gg.get_edge_num = sumE G →
      ∀ e ∈ gatherFeats (G.map GraphData.edge_features), none ∉ e.2 →
      ∃ t, catTensors e.2.reduceOption = .ok t
        ∧ t.rows.length = gg.get_edge_num := by
    intro gg hgg e he hn
    obtain ⟨k, v⟩ := e
    obtain ⟨t, hcat, hlen2, -, -, -⟩ :=
      gather_entry_cat (c := GraphData.get_edge_num) hne hcE hwE hefl hek he hn
    exact ⟨t, hcat, by rw [hgg]; exact hlen2⟩
  unfold to_batch
  rw [hisEmpty, if_neg Bool.false_ne_true]
  dsimp only
  rw [add_nodes_ok _ (show (0 : Int) < ((G.map GraphData.get_node_num).sum : Int)
    by exact_mod_cast htot), except_ok_bind]
  rw [setNodeFeatsFold_ok _ _ (hfoldN _ ?hnn1), except_ok_bind]
  case hnn1 =>
    simp only [GraphData.get_node_num, GraphData.init, List.length_append,
      List.length_replicate, List.length_nil, Int.toNat_natCast, sumN,
      Nat.zero_add]
  dsimp only
  rw [copyAttrsStep_eq, overwriteSeq_full _ _ ?hlen1]
  case hlen1 =>
    simp only [List.length_join, List.map_map, GraphData.init,
      List.length_append, List.length_replicate, List.length_nil,
      Int.toNat_natCast, List.nil_append, Nat.zero_add]
    rfl
  rw [add_edges_clean _ _ _
    (by rw [stackEdges_tgt_length G 0 hlenT, stackEdges_src_length])
    (stackEdges_zip_nodup G 0 hlenT hrange hndP) ?hfr, except_ok_bind]
  case hfr =>
    intro p _
    rfl
  rw [setEdgeFeatsFold_ok _ _ (hfoldE _ ?hee1), except_ok_bind]
  case hee1 =>
    show ((stackEdges G 0).1).length = sumE G
    exact stackEdges_src_length G 0
  dsimp only
  rw [copyAttrsStep_eq, overwriteSeq_full _ _ ?hlen2]
  case hlen2 =>
    show ((List.map GraphData.edge_attributes G).join).length
        = (GraphData.init.edge_attributes
            ++ List.replicate (stackEdges G 0).1.length initEdgeAttr).length
    rw [List.length_join, List.map_map]
    simp only [GraphData.init, List.length_append, List.length_nil,
      List.length_replicate, Nat.zero_add, stackEdges_src_length]
    unfold sumE
    congr 1
    apply List.map_congr_left
    intro g hg
    exact heal g hg
  have hmap : (fun q : Nat × (Int × Int)
        => ((q.2, GraphData.init.edge_attributes.length + q.1) : (Int × Int) × Nat))
      = (fun q => (q.2, q.1)) := by
    funext q
    simp [GraphData.init]
  rw [hmap]
  rfl

/-! ### Decomposing the stacked edges for `from_batch` -/

theorem stackEdges_append :
    ∀ (A B : List GraphData) (off : Int),
      stackEdges (A ++ B) off
        = ((stackEdges A off).1 ++ (stackEdges B (off + (sumN A : Int))).1,
           (stackEdges A off).2 ++ (stackEdges B (off + (sumN A : Int))).2) := by
  intro A
  induction A with
  | nil =>
    intro B off
    simp [stackEdges, sumN]
  | cons g rest ih =>
    intro B off
    have hoff : off + (g.get_node_num : Int) + (sumN rest : Int)
        = off + (sumN (g :: rest) : Int) := by
      simp only [sumN, List.map_cons, List.sum_cons]
      push_cast
      ring
    rw [List.cons_append]
    show (g.edge_src.map (fun s => s + off)
        ++ (stackEdges (rest ++ B) (off + (g.get_node_num : Int))).1,
      g.edge_tgt.map (fun t => t + off)
        ++ (stackEdges (rest ++ B) (off + (g.get_node_num : Int))).2) = _
    rw [ih B (off + (g.get_node_num : Int))]
    show (g.edge_src.map (fun s => s + off)
        ++ ((stackEdges rest (off + (g.get_node_num : Int))).1
            ++ (stackEdges B (off + (g.get_node_num : Int) + (sumN rest : Int))).1),
      _) = _
    rw [hoff]
    show _ = ((g.edge_src.map (fun s => s + off)
          ++ (stackEdges rest (off + (g.get_node_num : Int))).1)
        ++ (stackEdges B (off + (sumN (g :: rest) : Int))).1,
      (g.edge_tgt.map (fun t => t + off)
          ++ (stackEdges rest (off + (g.get_node_num : Int))).2)
        ++ (stackEdges B (off + (sumN (g :: rest) : Int))).2)
    rw [List.append_assoc, List.append_assoc]

theorem stackZip_append (A B : List GraphData) (off : Int)
    (hlenT : ∀ g ∈ A, g.edge_tgt.length = g.edge_src.length) :
    (stackEdges (A ++ B) off).1.zip (stackEdges (A ++ B) off).2
      = ((stackEdges A off).1.zip (stackEdges A off).2)
        ++ ((stackEdges B (off + (sumN A : Int))).1.zip
            (stackEdges B (off + (sumN A : Int))).2) := by
  rw [stackEdges_append A B off]
  exact List.zip_append (by rw [stackEdges_src_length, stackEdges_tgt_length A off hlenT])

theorem sumN_append (A B : List GraphData) : sumN (A ++ B) = sumN A + sumN B := by
  simp [sumN]

theorem sumE_append (A B : List GraphData) : sumE (A ++ B) = sumE A + sumE B := by
  simp [sumE]

theorem stackZip_length (A : List GraphData) (off : Int)
    (hlenT : ∀ g ∈ A, g.edge_tgt.length = g.edge_src.length) :
    ((stackEdges A off).1.zip (stackEdges A off).2).length = sumE A := by
  rw [List.length_zip, stackEdges_src_length, stackEdges_tgt_length A off hlenT,
    Nat.min_self]

theorem block_unmap_src (g : GraphData) (off : Int)
    (hlenT : g.edge_tgt.length = g.edge_src.length) :
    (((g.edge_src.zip g.edge_tgt).map
        (Prod.map (fun s => s + off) (fun t => t + off))).map
      (fun e : Int × Int => e.1 - off)) = g.edge_src := by
  rw [List.map_map]
  have hfun : ((fun e : Int × Int => e.1 - off)
      ∘ Prod.map (fun s => s + off) (fun t => t + off))
      = fun p : Int × Int => p.1 := by
    funext p
    cases p
    simp [Prod.map]
  rw [hfun]
  exact List.map_fst_zip _ _ (by omega)

theorem block_unmap_tgt (g : GraphData) (off : Int)
    (hlenT : g.edge_tgt.length = g.edge_src.length) :
    (((g.edge_src.zip g.edge_tgt).map
        (Prod.map (fun s => s + off) (fun t => t + off))).map
      (fun e : Int × Int => e.2 - off)) = g.edge_tgt := by
  rw [List.map_map]
  have hfun : ((fun e : Int × Int => e.2 - off)
      ∘ Prod.map (fun s => s + off) (fun t => t + off))
      = fun p : Int × Int => p.2 := by
    funext p
    cases p
    simp [Prod.map]
  rw [hfun]
  exact List.map_snd_zip _ _ (by omega)

/-- The contiguous block of stacked edges belonging to the graph `g` that
follows the prefix `A`. -/
theorem stackZip_slice (A : List GraphData) (g : GraphData) (R : List GraphData)
    (hlenT : ∀ g' ∈ A ++ g :: R, g'.edge_tgt.length = g'.edge_src.length) :
    ((((stackEdges (A ++ g :: R) 0).1.zip
        (stackEdges (A ++ g :: R) 0).2).drop (sumE A)).take g.get_edge_num)
      = (g.edge_src.zip g.edge_tgt).map
          (Prod.map (fun s => s + ((sumN A : Nat) : Int))
                    (fun t => t + ((sumN A : Nat) : Int))) := by
  rw [stackZip_append A (g :: R) 0
    (fun g' hg' => hlenT g' (List.mem_append_left _ hg'))]
  rw [show ((0 : Int) + (sumN A : Int)) = (sumN A : Int) by ring]
  rw [show sumE A = ((stackEdges A 0).1.zip (stackEdges A 0).2).length from
    (stackZip_length A 0 (fun g' hg' => hlenT g' (List.mem_append_left _ hg'))).symm]
  rw [List.drop_left]
  rw [stackEdges_zip_cons g R (sumN A : Int)
    (hlenT g (List.mem_append_right _ (List.mem_cons_self _ _)))]
  rw [show g.get_edge_num = ((g.edge_src.zip g.edge_tgt).map
      (Prod.map (fun s => s + ((sumN A : Nat) : Int))
                (fun t => t + ((sumN A : Nat) : Int)))).length from by
    rw [List.length_map, List.length_zip,
      hlenT g (List.mem_append_right _ (List.mem_cons_self _ _)), Nat.min_self]
    rfl]
  rw [List.take_left]

theorem add_edges_into_fresh (g0 : GraphData) (src tgt : List Int)
    (h0map : g0.nids_eid_mapping = []) (h0attr : g0.edge_attributes = [])
    (h0src : g0.edge_src = []) (h0tgt : g0.edge_tgt = [])
    (hlen : src.length = tgt.length) (hnd : (src.zip tgt).Nodup) :
    g0.add_edges src tgt = .ok { g0 with
      nids_eid_mapping := ((src.zip tgt).enumFrom 0).map (fun q => (q.2, q.1)),
      edge_src := src,
      edge_tgt := tgt,
      edge_attributes := List.replicate src.length initEdgeAttr,
      edge_features := padTable g0.edge_features src.length } := by
  rw [add_edges_clean g0 src tgt hlen hnd
    (by intro p _; rw [h0map]; rfl)]
  simp only [h0map, h0attr, h0src, h0tgt, List.nil_append, List.length_nil,
    Nat.zero_add]

theorem buildChildren_spec :
    ∀ (R A : List GraphData),
      (∀ g ∈ A ++ R, WFgraph g) →
      buildChildren (some ((A ++ R).map GraphData.get_node_num))
          (some ((A ++ R).map GraphData.get_edge_num))
          ((stackEdges (A ++ R) 0).1.zip (stackEdges (A ++ R) 0).2)
          (List.range' A.length R.length)
          (sumN A) (sumE A)
        = .ok (R.map childOf) := by
  intro R
  induction R with
  | nil => intro A _; rfl
  | cons g R' ih =>
    intro A hwf
    have hg : g ∈ A ++ g :: R' :=
      List.mem_append_right _ (List.mem_cons_self _ _)
    have hwfg := hwf g hg
    have hlenT : ∀ g' ∈ A ++ g :: R', g'.edge_tgt.length = g'.edge_src.length :=
      fun g' hg' => (hwf g' hg').1
    have hgetn : ((A ++ g :: R').map GraphData.get_node_num)[A.length]?
        = some g.get_node_num := by
      rw [List.map_append, List.getElem?_append_right (by simp)]
      simp
    have hgetm : ((A ++ g :: R').map GraphData.get_edge_num)[A.length]?
        = some g.get_edge_num := by
      rw [List.map_append, List.getElem?_append_right (by simp)]
      simp
    show buildChildren _ _ _ (List.range' A.length (R'.length + 1)) _ _ = _
    rw [List.range'_succ]
    rw [buildChildren]
    rw [show optGet (some ((A ++ g :: R').map GraphData.get_node_num)) A.length
        = .ok g.get_node_num from by rw [optGet, hgetn]]
    rw [except_ok_bind]
    rw [show optGet (some ((A ++ g :: R').map GraphData.get_edge_num)) A.length
        = .ok g.get_edge_num from by rw [optGet, hgetm]]
    rw [except_ok_bind]
    rw [add_nodes_ok _ (show (0 : Int) < (g.get_node_num : Int) from by
      have := hwfg.2.2.2.2.2.2.2.2
      exact_mod_cast this)]
    rw [except_ok_bind]
    rw [stackZip_slice A g R' hlenT]
    dsimp only
    rw [block_unmap_src g _ hwfg.1, block_unmap_tgt g _ hwfg.1]
    rw [add_edges_into_fresh _ _ _ rfl rfl rfl rfl hwfg.1.symm hwfg.2.2.1]
    rw [except_ok_bind]
    have harr : A.length + 1 = (A ++ [g]).length := by simp
    have hsn : sumN A + g.get_node_num = sumN (A ++ [g]) := by
      rw [sumN_append]
      simp [sumN]
    have hse : sumE A + g.get_edge_num = sumE (A ++ [g]) := by
      rw [sumE_append]
      simp [sumE]
    have hassoc : A ++ g :: R' = (A ++ [g]) ++ R' := by
      rw [List.append_assoc]
      rfl
    rw [harr, hsn, hse, hassoc]
    rw [ih (A ++ [g]) (by rw [← hassoc]; exact hwf)]
    rw [except_ok_bind]
    rfl

theorem assignNodeFeatOne_spec :
    ∀ (R A : List GraphData) (k : String) (v : Tensor) (ret : List GraphData),
      ret.length = (A ++ R).length →
      (∀ j (hj : j < R.length), ∃ gj, ret[A.length + j]? = some gj
        ∧ gj.get_node_num = (R.get ⟨j, hj⟩).get_node_num) →
      v.rows.length = sumN (A ++ R) →
      ∃ ret', assignNodeFeatOne k v (some ((A ++ R).map GraphData.get_node_num))
          (List.range' A.length R.length) (sumN A) ret = .ok ret'
        ∧ ret'.length = ret.length
        ∧ (∀ p, p < A.length ∨ A.length + R.length ≤ p → ret'[p]? = ret[p]?)
        ∧ (∀ j (hj : j < R.length), ret'[A.length + j]?
            = (ret[A.length + j]?).map (fun c =>
                { c with
                  node_features := tableSet c.node_features k
                    (some ⟨v.width, (v.rows.drop (sumN A + sumN (R.take j))).take
                      ((R.get ⟨j, hj⟩).get_node_num)⟩) })) := by
  intro R
  induction R with
  | nil =>
    intro A k v ret hlen _ _
    exact ⟨ret, rfl, rfl, fun p _ => rfl, fun j hj => absurd hj (by simp)⟩
  | cons g R' ih =>
    intro A k v ret hlen hcount hrows
    obtain ⟨g0, hg0, hg0n⟩ := hcount 0 (by simp)
    rw [Nat.add_zero] at hg0
    have hgetn : ((A ++ g :: R').map GraphData.get_node_num)[A.length]?
        = some g.get_node_num := by
      rw [List.map_append, List.getElem?_append_right (by simp)]
      simp
    have hslice0 : ((v.rows.drop (sumN A)).take g.get_node_num).length
        = g.get_node_num := by
      rw [List.length_take, List.length_drop, hrows, sumN_append]
      simp only [sumN, List.map_cons, List.sum_cons]
      omega
    have hset := set_node_features_full g0 k
      ⟨v.width, (v.rows.drop (sumN A)).take g.get_node_num⟩
      (by rw [hg0n]; exact hslice0)
    have harr : A.length + 1 = (A ++ [g]).length := by simp
    have hsn : sumN A + g.get_node_num = sumN (A ++ [g]) := by
      rw [sumN_append]; simp [sumN]
    have hassoc : A ++ g :: R' = (A ++ [g]) ++ R' := by
      rw [List.append_assoc]; rfl
    obtain ⟨ret', hret', hlen', hout', hupd'⟩ := ih (A ++ [g]) k v
      (ret.set A.length
        { g0 with
          node_features := tableSet g0.node_features k
            (some ⟨v.width, (v.rows.drop (sumN A)).take g.get_node_num⟩) })
      (by rw [List.length_set, hlen, ← hassoc])
      (by
        intro j hj
        rw [← harr]
        rw [List.getElem?_set_ne (by omega)]
        obtain ⟨gj, hgj, hgjn⟩ := hcount (j + 1) (by simpa using hj)
        refine ⟨gj, ?_, ?_⟩
        · rw [show A.length + 1 + j = A.length + (j + 1) by omega]
          exact hgj
        · exact hgjn)
      (by rw [← hassoc]; exact hrows)
    refine ⟨ret', ?_, ?_, ?_, ?_⟩
    · rw [show List.range' A.length (g :: R').length
          = A.length :: List.range' (A.length + 1) R'.length from rfl]
      rw [assignNodeFeatOne]
      rw [show optGet (some ((A ++ g :: R').map GraphData.get_node_num)) A.length
          = .ok g.get_node_num from by rw [optGet, hgetn]]
      rw [except_ok_bind]
      rw [show listGetG ret A.length = .ok g0 from by rw [listGetG, hg0]]
      rw [except_ok_bind]
      rw [fullSlice_def, hset, except_ok_bind]
      rw [← hassoc, ← harr, ← hsn] at hret'
      exact hret'
    · rw [hlen', List.length_set]
    · intro p hp
      rw [hout' p (by rw [← harr]; simp only [List.length_cons] at hp; omega)]
      rw [List.getElem?_set_ne (by simp only [List.length_cons] at hp; omega)]
    · intro j hj
      match j with
      | 0 =>
        rw [Nat.add_zero]
        rw [hout' A.length (by rw [← harr]; omega)]
        rw [List.getElem?_set_self (by
          rw [hlen]
          simp only [List.length_append, List.length_cons]
          omega)]
        rw [hg0]
        simp only [Option.map_some', List.take_zero]
        rfl
      | j + 1 =>
        have hj' : j < R'.length := by simpa using hj
        have h1 := hupd' j hj'
        rw [← harr] at h1
        rw [show A.length + 1 + j = A.length + (j + 1) by omega] at h1
        rw [h1]
        rw [List.getElem?_set_ne (by omega)]
        have hcum : sumN (A ++ [g]) + sumN (R'.take j)
            = sumN A + sumN ((g :: R').take (j + 1)) := by
          rw [← hsn]
          simp only [List.take_succ_cons, sumN, List.map_cons, List.sum_cons]
          omega
        rw [hcum]
        rfl

theorem assignEdgeFeatOne_spec :
    ∀ (R A : List GraphData) (k : String) (v : Tensor) (ret : List GraphData),
      ret.length = (A ++ R).length →
      (∀ j (hj : j < R.length), ∃ gj, ret[A.length + j]? = some gj
        ∧ gj.get_edge_num = (R.get ⟨j, hj⟩).get_edge_num) →
      v.rows.length = sumE (A ++ R) →
      ∃ ret', assignEdgeFeatOne k v (some ((A ++ R).map GraphData.get_edge_num))
          (List.range' A.length R.length) (sumE A) ret = .ok ret'
        ∧ ret'.length = ret.length
        ∧ (∀ p, p < A.length ∨ A.length + R.length ≤ p → ret'[p]? = ret[p]?)
        ∧ (∀ j (hj : j < R.length), ret'[A.length + j]?
            = (ret[A.length + j]?).map (fun c =>
                { c with
                  edge_features := tableSet c.edge_features k
                    (some ⟨v.width, (v.rows.drop (sumE A + sumE (R.take j))).take
                      ((R.get ⟨j, hj⟩).get_edge_num)⟩) })) := by
  intro R
  induction R with
  | nil =>
    intro A k v ret hlen _ _
    exact ⟨ret, rfl, rfl, fun p _ => rfl, fun j hj => absurd hj (by simp)⟩
  | cons g R' ih =>
    intro A k v ret hlen hcount hrows
    obtain ⟨g0, hg0, hg0n⟩ := hcount 0 (by simp)
    rw [Nat.add_zero] at hg0
    have hgetn : ((A ++ g :: R').map GraphData.get_edge_num)[A.length]?
        = some g.get_edge_num := by
      rw [List.map_append, List.getElem?_append_right (by simp)]
      simp
    have hslice0 : ((v.rows.drop (sumE A)).take g.get_edge_num).length
        = g.get_edge_num := by
      rw [List.length_take, List.length_drop, hrows, sumE_append]
      simp only [sumE, List.map_cons, List.sum_cons]
      omega
    have hset := set_edge_feature_full g0 k
      ⟨v.width, (v.rows.drop (sumE A)).take g.get_edge_num⟩
      (by rw [hg0n]; exact hslice0)
    have harr : A.length + 1 = (A ++ [g]).length := by simp
    have hsn : sumE A + g.get_edge_num = sumE (A ++ [g]) := by
      rw [sumE_append]; simp [sumE]
    have hassoc : A ++ g :: R' = (A ++ [g]) ++ R' := by
      rw [List.append_assoc]; rfl
    obtain ⟨ret', hret', hlen', hout', hupd'⟩ := ih (A ++ [g]) k v
      (ret.set A.length
        { g0 with
          edge_features := tableSet g0.edge_features k
            (some ⟨v.width, (v.rows.drop (sumE A)).take g.get_edge_num⟩) })
      (by rw [List.length_set, hlen, ← hassoc])
      (by
        intro j hj
        rw [← harr]
        rw [List.getElem?_set_ne (by omega)]
        obtain ⟨gj, hgj, hgjn⟩ := hcount (j + 1) (by simpa using hj)
        refine ⟨gj, ?_, ?_⟩
        · rw [show A.length + 1 + j = A.length + (j + 1) by omega]
          exact hgj
        · exact hgjn)
      (by rw [← hassoc]; exact hrows)
    refine ⟨ret', ?_, ?_, ?_, ?_⟩
    · rw [show List.range' A.length (g :: R').length
          = A.length :: List.range' (A.length + 1) R'.length from rfl]
      rw [assignEdgeFeatOne]
      rw [show optGet (some ((A ++ g :: R').map GraphData.get_edge_num)) A.length
          = .ok g.get_edge_num from by rw [optGet, hgetn]]
      rw [except_ok_bind]
      rw [show listGetG ret A.length = .ok g0 from by rw [listGetG, hg0]]
      rw [except_ok_bind]
      rw [fullSlice_def, hset, except_ok_bind]
      rw [← hassoc, ← harr, ← hsn] at hret'
      exact hret'
    · rw [hlen', List.length_set]
    · intro p hp
      rw [hout' p (by rw [← harr]; simp only [List.length_cons] at hp; omega)]
      rw [List.getElem?_set_ne (by simp only [List.length_cons] at hp; omega)]
    · intro j hj
      match j with
      | 0 =>
        rw [Nat.add_zero]
        rw [hout' A.length (by rw [← harr]; omega)]
        rw [List.getElem?_set_self (by
          rw [hlen]
          simp only [List.length_append, List.length_cons]
          omega)]
        rw [hg0]
        simp only [Option.map_some', List.take_zero]
        rfl
      | j + 1 =>
        have hj' : j < R'.length := by simpa using hj
        have h1 := hupd' j hj'
        rw [← harr] at h1
        rw [show A.length + 1 + j = A.length + (j + 1) by omega] at h1
        rw [h1]
        rw [List.getElem?_set_ne (by omega)]
        have hcum : sumE (A ++ [g]) + sumE (R'.take j)
            = sumE A + sumE ((g :: R').take (j + 1)) := by
          rw [← hsn]
          simp only [List.take_succ_cons, sumE, List.map_cons, List.sum_cons]
          omega
        rw [hcum]
        rfl

theorem assignNodeFeats_spec :
    ∀ (tb : FeatTable) (G : List GraphData) (ret : List GraphData),
      ret.length = G.length →
      (∀ kv ∈ tb, ∀ t, kv.2 = some t → t.rows.length = sumN G) →
      (∀ j (hj : j < G.length), ∃ gj, ret[j]? = some gj
        ∧ gj.get_node_num = (G.get ⟨j, hj⟩).get_node_num) →
      ∃ ret', assignNodeFeats (some (G.map GraphData.get_node_num)) G.length
          tb ret = .ok ret'
        ∧ ret'.length = ret.length
        ∧ ∀ j (hj : j < G.length), ret'[j]?
            = (ret[j]?).map (fun c =>
                { c with
                  node_features := applyCarried c.node_features
                    ((tb.filterMap (fun kv => kv.2.map (fun t => (kv.1, t)))).map
                      (fun p => (p.1, (⟨p.2.width,
                        (p.2.rows.drop (sumN (G.take j))).take
                          ((G.get ⟨j, hj⟩).get_node_num)⟩ : Tensor)))) }) := by
  intro tb
  induction tb with
  | nil =>
    intro G ret hlen _ _
    refine ⟨ret, rfl, rfl, ?_⟩
    intro j hj
    cases ret[j]? <;> rfl
  | cons kv rest ih =>
    obtain ⟨k, v⟩ := kv
    intro G ret hlen hrows hcount
    cases v with
    | none =>
      obtain ⟨ret', h1, h2, h3⟩ := ih G ret hlen
        (fun kv' hkv' => hrows kv' (List.mem_cons_of_mem _ hkv')) hcount
      refine ⟨ret', h1, h2, ?_⟩
      intro j hj
      rw [h3 j hj]
      rfl
    | some v =>
      have hv : v.rows.length = sumN ([] ++ G) :=
        hrows (k, some v) (List.mem_cons_self _ _) v rfl
      obtain ⟨ret2, hret2, hlen2, hout2, hupd2⟩ :=
        assignNodeFeatOne_spec G [] k v ret hlen
          (by
            intro j hj
            obtain ⟨gj, hgj, hgjn⟩ := hcount j hj
            exact ⟨gj, by simpa using hgj, hgjn⟩)
          hv
      have hupd2' : ∀ j (hj : j < G.length), ret2[j]?
          = (ret[j]?).map (fun c =>
              { c with
                node_features := tableSet c.node_features k
                  (some ⟨v.width, (v.rows.drop (sumN (G.take j))).take
                    ((G.get ⟨j, hj⟩).get_node_num)⟩) }) := by
        intro j hj
        have h4 := hupd2 j hj
        have h0 : sumN ([] : List GraphData) + sumN (G.take j) = sumN (G.take j) := by
          simp [sumN]
        rw [h0] at h4
        simpa using h4
      obtain ⟨ret', h1, h2, h3⟩ := ih G ret2
        (by rw [hlen2, hlen])
        (fun kv' hkv' => hrows kv' (List.mem_cons_of_mem _ hkv'))
        (by
          intro j hj
          obtain ⟨gj, hgj, hgjn⟩ := hcount j hj
          rw [hupd2' j hj, hgj]
          exact ⟨_, rfl, hgjn⟩)
      refine ⟨ret', ?_, by rw [h2, hlen2], ?_⟩
      · simp only [List.nil_append, List.length_nil,
          show sumN ([] : List GraphData) = 0 from rfl] at hret2
        rw [assignNodeFeats, List.range_eq_range', hret2, except_ok_bind]
        exact h1
      · intro j hj
        rw [h3 j hj, hupd2' j hj]
        cases hret : ret[j]? with
        | none => rfl
        | some c =>
          simp only [Option.map_some']
          rw [List.filterMap_cons]
          simp only [Option.map_some', List.map_cons]
          rw [applyCarried_cons]

theorem assignEdgeFeats_spec :
    ∀ (tb : FeatTable) (G : List GraphData) (ret : List GraphData),
      ret.length = G.length →
      (∀ kv ∈ tb, ∀ t, kv.2 = some t → t.rows.length = sumE G) →
      (∀ j (hj : j < G.length), ∃ gj, ret[j]? = some gj
        ∧ gj.get_edge_num = (G.get ⟨j, hj⟩).get_edge_num) →
      ∃ ret', assignEdgeFeats (some (G.map GraphData.get_edge_num)) G.length
          tb ret = .ok ret'
        ∧ ret'.length = ret.length
        ∧ ∀ j (hj : j < G.length), ret'[j]?
            = (ret[j]?).map (fun c =>
                { c with
                  edge_features := applyCarried c.edge_features
                    ((tb.filterMap (fun kv => kv.2.map (fun t => (kv.1, t)))).map
                      (fun p => (p.1, (⟨p.2.width,
                        (p.2.rows.drop (sumE (G.take j))).take
                          ((G.get ⟨j, hj⟩).get_edge_num)⟩ : Tensor)))) }) := by
  intro tb
  induction tb with
  | nil =>
    intro G ret hlen _ _
    refine ⟨ret, rfl, rfl, ?_⟩
    intro j hj
    cases ret[j]? <;> rfl
  | cons kv rest ih =>
    obtain ⟨k, v⟩ := kv
    intro G ret hlen hrows hcount
    cases v with
    | none =>
      obtain ⟨ret', h1, h2, h3⟩ := ih G ret hlen
        (fun kv' hkv' => hrows kv' (List.mem_cons_of_mem _ hkv')) hcount
      refine ⟨ret', h1, h2, ?_⟩
      intro j hj
      rw [h3 j hj]
      rfl
    | some v =>
      have hv : v.rows.length = sumE ([] ++ G) :=
        hrows (k, some v) (List.mem_cons_self _ _) v rfl
      obtain ⟨ret2, hret2, hlen2, hout2, hupd2⟩ :=
        assignEdgeFeatOne_spec G [] k v ret hlen
          (by
            intro j hj
            obtain ⟨gj, hgj, hgjn⟩ := hcount j hj
            exact ⟨gj, by simpa using hgj, hgjn⟩)
          hv
      have hupd2' : ∀ j (hj : j < G.length), ret2[j]?
          = (ret[j]?).map (fun c =>
              { c with
                edge_features := tableSet c.edge_features k
                  (some ⟨v.width, (v.rows.drop (sumE (G.take j))).take
                    ((G.get ⟨j, hj⟩).get_edge_num)⟩) }) := by
        intro j hj
        have h4 := hupd2 j hj
        have h0 : sumE ([] : List GraphData) + sumE (G.take j) = sumE (G.take j) := by
          simp [sumE]
        rw [h0] at h4
        simpa using h4
      obtain ⟨ret', h1, h2, h3⟩ := ih G ret2
        (by rw [hlen2, hlen])
        (fun kv' hkv' => hrows kv' (List.mem_cons_of_mem _ hkv'))
        (by
          intro j hj
          obtain ⟨gj, hgj, hgjn⟩ := hcount j hj
          rw [hupd2' j hj, hgj]
          exact ⟨_, rfl, hgjn⟩)
      refine ⟨ret', ?_, by rw [h2, hlen2], ?_⟩
      · simp only [List.nil_append, List.length_nil,
          show sumE ([] : List GraphData) = 0 from rfl] at hret2
        rw [assignEdgeFeats, List.range_eq_range', hret2, except_ok_bind]
        exact h1
      · intro j hj
        rw [h3 j hj, hupd2' j hj]
        cases hret : ret[j]? with
        | none => rfl
        | some c =>
          simp only [Option.map_some']
          rw [List.filterMap_cons]
          simp only [Option.map_some', List.map_cons]
          rw [applyCarried_cons]

/-! ### Attribute-restoring loop of `from_batch` -/

theorem join_block_le {α : Type} (f : GraphData → List α) :
    ∀ (A : List GraphData) (g : GraphData) (R : List GraphData),
      (A.map (fun x => (f x).length)).sum + (f g).length
        ≤ (((A ++ g :: R).map f).join).length := by
  intro A g R
  rw [List.length_join, List.map_map, List.map_append, List.sum_append]
  simp only [List.map_cons, List.sum_cons]
  have hc : A.map (List.length ∘ f) = A.map (fun x => (f x).length) := rfl
  have hg : (List.length ∘ f) g = (f g).length := rfl
  rw [hc, hg]
  omega

theorem join_block {α : Type} (f : GraphData → List α) :
    ∀ (A : List GraphData) (g : GraphData) (R : List GraphData) (off : Nat),
      off = (A.map (fun x => (f x).length)).sum →
      ((((A ++ g :: R).map f).join).drop off).take (f g).length = f g := by
  intro A
  induction A with
  | nil =>
    intro g R off hoff
    subst hoff
    simp only [List.map_nil, List.sum_nil, List.nil_append, List.map_cons,
      List.join_cons, List.drop_zero]
    exact List.take_left _ _
  | cons a A' ih =>
    intro g R off hoff
    subst hoff
    simp only [List.map_cons, List.sum_cons, List.cons_append, List.join_cons]
    rw [List.drop_append]
    exact ih g R _ rfl

theorem sliceList_ok {α : Type} (l : List α) (a len : Nat)
    (h : a + len ≤ l.length) : sliceList l a len = .ok ((l.drop a).take len) := by
  unfold sliceList
  rw [if_pos h]

theorem assignAttrs_spec :
    ∀ (R A : List GraphData) (ret : List GraphData),
      ret.length = (A ++ R).length →
      (∀ g ∈ A ++ R, g.edge_attributes.length = g.get_edge_num) →
      (∀ j (hj : j < R.length), ∃ gj, ret[A.length + j]? = some gj
        ∧ gj.node_attributes.length = (R.get ⟨j, hj⟩).get_node_num
        ∧ gj.edge_attributes.length = (R.get ⟨j, hj⟩).get_edge_num) →
      ∃ ret', assignAttrs (((A ++ R).map GraphData.node_attributes).join)
          (((A ++ R).map GraphData.edge_attributes).join)
          (some ((A ++ R).map GraphData.get_node_num))
          (some ((A ++ R).map GraphData.get_edge_num))
          (List.range' A.length R.length) (sumN A) (sumE A) ret = .ok ret'
        ∧ ret'.length = ret.length
        ∧ (∀ p, p < A.length ∨ A.length + R.length ≤ p → ret'[p]? = ret[p]?)
        ∧ (∀ j (hj : j < R.length), ret'[A.length + j]?
            = (ret[A.length + j]?).map (fun c =>
                { c with
                  node_attributes := (R.get ⟨j, hj⟩).node_attributes,
                  edge_attributes := (R.get ⟨j, hj⟩).edge_attributes })) := by
  intro R
  induction R with
  | nil =>
    intro A ret hlen _ _
    exact ⟨ret, rfl, rfl, fun p _ => rfl, fun j hj => absurd hj (by simp)⟩
  | cons g R' ih =>
    intro A ret hlen hea hcount
    obtain ⟨g0, hg0, hg0n, hg0e⟩ := hcount 0 (by simp)
    rw [Nat.add_zero] at hg0
    have hgmem : g ∈ A ++ g :: R' := by simp
    have hgetn : ((A ++ g :: R').map GraphData.get_node_num)[A.length]?
        = some g.get_node_num := by
      rw [List.map_append, List.getElem?_append_right (by simp)]
      simp
    have hgete : ((A ++ g :: R').map GraphData.get_edge_num)[A.length]?
        = some g.get_edge_num := by
      rw [List.map_append, List.getElem?_append_right (by simp)]
      simp
    have hsumEA : (A.map (fun x => x.edge_attributes.length)).sum = sumE A := by
      unfold sumE
      congr 1
      exact List.map_congr_left (fun x hx =>
        hea x (List.mem_append_left _ hx))
    have hle1 : sumN A + g.get_node_num
        ≤ (((A ++ g :: R').map GraphData.node_attributes).join).length :=
      join_block_le GraphData.node_attributes A g R'
    have hle2 : sumE A + g.get_edge_num
        ≤ (((A ++ g :: R').map GraphData.edge_attributes).join).length := by
      have h := join_block_le GraphData.edge_attributes A g R'
      rw [hsumEA, hea g hgmem] at h
      exact h
    have hns : (((((A ++ g :: R').map GraphData.node_attributes).join).drop
        (sumN A)).take g.get_node_num) = g.node_attributes :=
      join_block GraphData.node_attributes A g R' (sumN A) rfl
    have hes : (((((A ++ g :: R').map GraphData.edge_attributes).join).drop
        (sumE A)).take g.get_edge_num) = g.edge_attributes := by
      have h := join_block GraphData.edge_attributes A g R' (sumE A) hsumEA.symm
      rwa [hea g hgmem] at h
    have hov1 : overwriteSeq g0.node_attributes g.node_attributes 0
        = g.node_attributes :=
      overwriteSeq_full _ _ (by rw [hg0n]; rfl)
    have hov2 : overwriteSeq g0.edge_attributes g.edge_attributes 0
        = g.edge_attributes :=
      overwriteSeq_full _ _ (by rw [hg0e]; exact hea g hgmem)
    have harr : A.length + 1 = (A ++ [g]).length := by simp
    have hsn : sumN A + g.get_node_num = sumN (A ++ [g]) := by
      rw [sumN_append]; simp [sumN]
    have hse : sumE A + g.get_edge_num = sumE (A ++ [g]) := by
      rw [sumE_append]; simp [sumE]
    have hassoc : A ++ g :: R' = (A ++ [g]) ++ R' := by
      rw [List.append_assoc]; rfl
    obtain ⟨ret', hret', hlen', hout', hupd'⟩ := ih (A ++ [g])
      (ret.set A.length
        { g0 with
          node_attributes := g.node_attributes,
          edge_attributes := g.edge_attributes })
      (by rw [List.length_set, hlen, ← hassoc])
      (by rw [← hassoc]; exact hea)
      (by
        intro j hj
        rw [← harr]
        rw [List.getElem?_set_ne (by omega)]
        obtain ⟨gj, hgj, hgjn, hgje⟩ := hcount (j + 1) (by simpa using hj)
        refine ⟨gj, ?_, hgjn, hgje⟩
        rw [show A.length + 1 + j = A.length + (j + 1) by omega]
        exact hgj)
    refine ⟨ret', ?_, ?_, ?_, ?_⟩
    · rw [show List.range' A.length (g :: R').length
          = A.length :: List.range' (A.length + 1) R'.length from rfl]
      rw [assignAttrs]
      rw [show optGet (some ((A ++ g :: R').map GraphData.get_node_num)) A.length
          = .ok g.get_node_num from by rw [optGet, hgetn]]
      rw [except_ok_bind]
      rw [show optGet (some ((A ++ g :: R').map GraphData.get_edge_num)) A.length
          = .ok g.get_edge_num from by rw [optGet, hgete]]
      rw [except_ok_bind]
      rw [show listGetG ret A.length = .ok g0 from by rw [listGetG, hg0]]
      rw [except_ok_bind]
      rw [sliceList_ok _ _ _ hle1, except_ok_bind]
      rw [sliceList_ok _ _ _ hle2, except_ok_bind]
      rw [hns, hes, hov1, hov2]
      rw [← hassoc, ← harr, ← hsn, ← hse] at hret'
      exact hret'
    · rw [hlen', List.length_set]
    · intro p hp
      rw [hout' p (by rw [← harr]; simp only [List.length_cons] at hp; omega)]
      rw [List.getElem?_set_ne (by simp only [List.length_cons] at hp; omega)]
    · intro j hj
      match j with
      | 0 =>
        rw [Nat.add_zero]
        rw [hout' A.length (by rw [← harr]; omega)]
        rw [List.getElem?_set_self (by
          rw [hlen]
          simp only [List.length_append, List.length_cons]
          omega)]
        rw [hg0]
        rfl
      | j + 1 =>
        have hj' : j < R'.length := by simpa using hj
        have h1 := hupd' j hj'
        rw [← harr] at h1
        rw [show A.length + 1 + j = A.length + (j + 1) by omega] at h1
        rw [h1]
        rw [List.getElem?_set_ne (by omega)]
        rfl

/-! ### Lookups in the batched feature tables -/

theorem mem_padTable_none {tb : FeatTable} {m : Nat}
    (h0 : ∀ kv ∈ tb, kv.2 = none) : ∀ kv ∈ padTable tb m, kv.2 = none := by
  intro kv hkv
  rcases List.mem_map.mp hkv with ⟨kv0, hkv0, rfl⟩
  show entail_zero_padding kv0.2 m = none
  rw [h0 kv0 hkv0]
  rfl

theorem initNodeFeatures_none : ∀ kv ∈ initNodeFeatures, kv.2 = none := by decide

theorem initEdgeFeatures_none : ∀ kv ∈ initEdgeFeatures, kv.2 = none := by decide

theorem tlookup_all_none :
    ∀ (tb : FeatTable), (∀ kv ∈ tb, kv.2 = none) →
      ∀ {k : String} {v : Option Tensor}, tlookup tb k = some v → v = none := by
  intro tb
  induction tb with
  | nil => intro _ k v h; cases h
  | cons kv rest ih =>
    obtain ⟨k0, v0⟩ := kv
    intro h0 k v hl
    by_cases hk : k0 = k
    · rw [tlookup, if_pos hk] at hl
      have hv0 : v0 = none := h0 (k0, v0) (List.mem_cons_self _ _)
      rw [← Option.some.inj hl]
      exact hv0
    · rw [tlookup, if_neg hk] at hl
      exact ih (fun kv h => h0 kv (List.mem_cons_of_mem _ h)) hl

theorem EB_node_keys_nodup (G : List GraphData) :
    (((expectedBatch G).node_features).map Prod.fst).Nodup :=
  keys_applyCarried_nodup (by rw [keys_padTable]; decide)

theorem EB_edge_keys_nodup (G : List GraphData) :
    (((expectedBatch G).edge_features).map Prod.fst).Nodup :=
  keys_applyCarried_nodup (by decide)

/-- A feature name present on every graph is carried into the batched
table: its stored tensor is the concatenation of the per-graph blocks. -/
theorem gather_lookup_allPresent {G : List GraphData} {f : GraphData → FeatTable}
    {c : GraphData → Nat} {base : FeatTable} {k : String}
    (hne : G ≠ [])
    (hcoh : ∀ g₁ ∈ G, ∀ g₂ ∈ G, ∀ kv ∈ f g₁, ∀ _t ∈ kv.2,
      (tlookup (f g₂) kv.1).isSome)
    (hwidth : ∀ g₁ ∈ G, ∀ g₂ ∈ G, ∀ kv₁ ∈ f g₁, ∀ kv₂ ∈ f g₂,
      kv₁.1 = kv₂.1 → ∀ t₁ ∈ kv₁.2, ∀ t₂ ∈ kv₂.2, t₁.width = t₂.width)
    (hlen : ∀ g ∈ G, ∀ kv ∈ f g, ∀ t ∈ kv.2, t.rows.length = c g)
    (hkeys : ∀ g ∈ G, (f g |>.map Prod.fst).Nodup)
    (hall : ∀ g ∈ G, ∃ u, tlookup (f g) k = some (some u)) :
    ∃ t, tlookup (applyCarried base (carriedOf (gatherFeats (G.map f)))) k
        = some (some t)
      ∧ t.rows = (G.map (fun g => match tlookup (f g) k with
          | some (some u) => u.rows
          | _ => [])).join
      ∧ t.rows.length = (G.map c).sum
      ∧ (∀ g ∈ G, ∀ u, tlookup (f g) k = some (some u) → u.width = t.width) := by
  obtain ⟨g0, hg0⟩ : ∃ g0, g0 ∈ G := by
    cases G with
    | nil => exact absurd rfl hne
    | cons g rest => exact ⟨g, List.mem_cons_self _ _⟩
  have hks : k ∈ (gatherFeats (G.map f)).map Prod.fst := by
    refine mem_gatherFeats_keys.mpr ⟨f g0, List.mem_map.mpr ⟨g0, hg0, rfl⟩, ?_⟩
    rcases hall g0 hg0 with ⟨u, hu⟩
    rw [hu]
    rfl
  have he := gatherFeats_mem_of_key hks
  have hveq : (G.map f).filterMap (fun tb => tlookup tb k)
      = G.filterMap (fun g => tlookup (f g) k) := by
    rw [List.filterMap_map]
    rfl
  have hn : none ∉ (G.map f).filterMap (fun tb => tlookup tb k) := by
    rw [hveq]
    exact gather_none_not_mem hall
  obtain ⟨t, hcat, hlen', hrows, hwid, _⟩ :=
    gather_entry_cat hne hcoh hwidth hlen hkeys he hn
  have hmem := carriedOf_mem_of he hn hcat
  have hnd : ((carriedOf (gatherFeats (G.map f))).map Prod.fst).Nodup :=
    (keys_carriedOf_sublist _).nodup (gatherFeats_keys_nodup _)
  have hl := @tlookup_applyCarried_mem _ base _ hnd hmem
  exact ⟨t, hl, hrows, hlen', hwid⟩

/-- Conversely, a tensor found under a name in the batched table certifies
that the name was present on every graph, and recovers the block
structure. -/
theorem gather_lookup_inv {G : List GraphData} {f : GraphData → FeatTable}
    {c : GraphData → Nat} {base : FeatTable} {k : String} {t : Tensor}
    (hne : G ≠ [])
    (hcoh : ∀ g₁ ∈ G, ∀ g₂ ∈ G, ∀ kv ∈ f g₁, ∀ _t ∈ kv.2,
      (tlookup (f g₂) kv.1).isSome)
    (hwidth : ∀ g₁ ∈ G, ∀ g₂ ∈ G, ∀ kv₁ ∈ f g₁, ∀ kv₂ ∈ f g₂,
      kv₁.1 = kv₂.1 → ∀ t₁ ∈ kv₁.2, ∀ t₂ ∈ kv₂.2, t₁.width = t₂.width)
    (hlen : ∀ g ∈ G, ∀ kv ∈ f g, ∀ t ∈ kv.2, t.rows.length = c g)
    (hkeys : ∀ g ∈ G, (f g |>.map Prod.fst).Nodup)
    (hbase : ∀ kv ∈ base, kv.2 = none)
    (h : tlookup (applyCarried base (carriedOf (gatherFeats (G.map f)))) k
      = some (some t)) :
    (∀ g ∈ G, ∃ u, tlookup (f g) k = some (some u))
      ∧ t.rows = (G.map (fun g => match tlookup (f g) k with
          | some (some u) => u.rows
          | _ => [])).join
      ∧ (∀ g ∈ G, ∀ u, tlookup (f g) k = some (some u) → u.width = t.width) := by
  by_cases hk : k ∈ (carriedOf (gatherFeats (G.map f))).map Prod.fst
  · rcases List.mem_map.mp hk with ⟨p, hp, hpk⟩
    have hnd : ((carriedOf (gatherFeats (G.map f))).map Prod.fst).Nodup :=
      (keys_carriedOf_sublist _).nodup (gatherFeats_keys_nodup _)
    have hl := @tlookup_applyCarried_mem _ base _ hnd hp
    rw [hpk] at hl
    have hpt : p.2 = t := by
      have h2 := hl.symm.trans h
      exact Option.some.inj (Option.some.inj h2)
    rcases mem_carriedOf hp with ⟨e, he, hek, hnn, hcat⟩
    obtain ⟨k1, v⟩ := e
    dsimp only at hek hnn hcat
    rw [hek, hpk] at he
    obtain ⟨t', hcat', hlen', hrows', hwid', hall'⟩ :=
      gather_entry_cat hne hcoh hwidth hlen hkeys he hnn
    have ht' : t' = t := by
      rw [hcat] at hcat'
      rw [← hpt]
      exact (Except.ok.inj hcat').symm
    rw [ht'] at hrows' hwid'
    exact ⟨hall', hrows', hwid'⟩
  · rw [tlookup_applyCarried_not_mem hk] at h
    have := tlookup_all_none base hbase h
    cases this

/-- Every tensor stored in the batched table built over an all-`none` base
has one row per element of the whole batch. -/
theorem gather_table_rows_len {G : List GraphData} {f : GraphData → FeatTable}
    {c : GraphData → Nat} {base : FeatTable}
    (hne : G ≠ [])
    (hcoh : ∀ g₁ ∈ G, ∀ g₂ ∈ G, ∀ kv ∈ f g₁, ∀ _t ∈ kv.2,
      (tlookup (f g₂) kv.1).isSome)
    (hwidth : ∀ g₁ ∈ G, ∀ g₂ ∈ G, ∀ kv₁ ∈ f g₁, ∀ kv₂ ∈ f g₂,
      kv₁.1 = kv₂.1 → ∀ t₁ ∈ kv₁.2, ∀ t₂ ∈ kv₂.2, t₁.width = t₂.width)
    (hlen : ∀ g ∈ G, ∀ kv ∈ f g, ∀ t ∈ kv.2, t.rows.length = c g)
    (hkeys : ∀ g ∈ G, (f g |>.map Prod.fst).Nodup)
    (hbase : ∀ kv ∈ base, kv.2 = none) :
    ∀ kv ∈ applyCarried base (carriedOf (gatherFeats (G.map f))), ∀ t,
      kv.2 = some t → t.rows.length = (G.map c).sum := by
  intro kv hkv t hvt
  rcases mem_applyCarried hkv with ⟨p, hp, _, h2⟩ | hb
  · rcases mem_carriedOf hp with ⟨e, he, hek, hnn, hcat⟩
    obtain ⟨k1, v⟩ := e
    dsimp only at hek hnn hcat
    obtain ⟨t', hcat', hlen', _, _, _⟩ :=
      gather_entry_cat hne hcoh hwidth hlen hkeys he hnn
    have ht' : t' = t := by
      rw [hcat] at hcat'
      have hp2 : p.2 = t := by
        rw [hvt] at h2
        exact (Option.some.inj h2).symm
      rw [← hp2]
      exact (Except.ok.inj hcat').symm
    rw [← ht']
    exact hlen'
  · rw [hbase kv hb] at hvt
    cases hvt

/-- The per-graph block of a concatenated all-present feature. -/
theorem gather_rows_block {f : GraphData → FeatTable} {c : GraphData → Nat}
    {k : String} :
    ∀ (A : List GraphData) (g : GraphData) (R : List GraphData),
      (∀ g' ∈ A ++ g :: R, ∀ kv ∈ f g', ∀ u ∈ kv.2, u.rows.length = c g') →
      (∀ g' ∈ A ++ g :: R, ∃ u, tlookup (f g') k = some (some u)) →
      ((((A ++ g :: R).map (fun g' => match tlookup (f g') k with
          | some (some u) => u.rows
          | _ => [])).join).drop ((A.map c).sum)).take (c g)
        = match tlookup (f g) k with
          | some (some u) => u.rows
          | _ => [] := by
  intro A g R hlenc hall
  have hFlen : ∀ g' ∈ A ++ g :: R,
      (match tlookup (f g') k with
        | some (some u) => u.rows
        | _ => []).length = c g' := by
    intro g' hg'
    obtain ⟨u, hu⟩ := hall g' hg'
    rw [hu]
    exact hlenc g' hg' (k, some u) (mem_of_tlookup hu) u rfl
  have hoff : (A.map c).sum
      = (A.map (fun x => (match tlookup (f x) k with
          | some (some u) => u.rows
          | _ => []).length)).sum := by
    congr 1
    apply List.map_congr_left
    intro x hx
    exact (hFlen x (List.mem_append_left _ hx)).symm
  have htake : c g = (match tlookup (f g) k with
      | some (some u) => u.rows
      | _ => []).length :=
    (hFlen g (List.mem_append_right _ (List.mem_cons_self _ _))).symm
  rw [hoff, htake]
  exact join_block (fun g' => match tlookup (f g') k with
    | some (some u) => u.rows
    | _ => []) A g R _ rfl

/-- The `j`-th node block of a concatenated all-present node feature. -/
theorem node_rows_block (G : List GraphData) (k : String) (j : Nat)
    (hj : j < G.length) (hwf : ∀ g ∈ G, WFgraph g) (hall : AllPresentN G k) :
    (((G.map (fun g => match tlookup g.node_features k with
        | some (some u) => u.rows
        | _ => [])).join).drop (sumN (G.take j))).take
          ((G.get ⟨j, hj⟩).get_node_num)
      = match tlookup (G.get ⟨j, hj⟩).node_features k with
        | some (some u) => u.rows
        | _ => [] := by
  have hdec : G = G.take j ++ G.get ⟨j, hj⟩ :: G.drop (j + 1) := by
    conv_lhs => rw [← List.take_append_drop j G]
    rw [List.drop_eq_getElem_cons hj]
    rfl
  have hblock := @gather_rows_block GraphData.node_features GraphData.get_node_num k
    (G.take j) (G.get ⟨j, hj⟩) (G.drop (j + 1))
    (by rw [← hdec]; intro g' hg' kv hkv u hu; exact (hwf g' hg').2.2.2.1 kv hkv u hu)
    (by rw [← hdec]; exact hall)
  rw [← hdec] at hblock
  rw [show sumN (G.take j) = ((G.take j).map GraphData.get_node_num).sum from rfl]
  exact hblock

/-- The `j`-th edge block of a concatenated all-present edge feature. -/
theorem edge_rows_block (G : List GraphData) (k : String) (j : Nat)
    (hj : j < G.length) (hwf : ∀ g ∈ G, WFgraph g) (hall : AllPresentE G k) :
    (((G.map (fun g => match tlookup g.edge_features k with
        | some (some u) => u.rows
        | _ => [])).join).drop (sumE (G.take j))).take
          ((G.get ⟨j, hj⟩).get_edge_num)
      = match tlookup (G.get ⟨j, hj⟩).edge_features k with
        | some (some u) => u.rows
        | _ => [] := by
  have hdec : G = G.take j ++ G.get ⟨j, hj⟩ :: G.drop (j + 1) := by
    conv_lhs => rw [← List.take_append_drop j G]
    rw [List.drop_eq_getElem_cons hj]
    rfl
  have hblock := @gather_rows_block GraphData.edge_features GraphData.get_edge_num k
    (G.take j) (G.get ⟨j, hj⟩) (G.drop (j + 1))
    (by rw [← hdec]; intro g' hg' kv hkv u hu; exact (hwf g' hg').2.2.2.2.1 kv hkv u hu)
    (by rw [← hdec]; exact hall)
  rw [← hdec] at hblock
  rw [show sumE (G.take j) = ((G.take j).map GraphData.get_edge_num).sum from rfl]
  exact hblock

theorem featPairs_keys_sublist (tb : FeatTable) (F : String × Tensor → Tensor) :
    List.Sublist (((tb.filterMap (fun kv => kv.2.map (fun t => (kv.1, t)))).map
      (fun p => (p.1, F p))).map Prod.fst) (tb.map Prod.fst) := by
  induction tb with
  | nil => simp
  | cons kv rest ih =>
    obtain ⟨k0, v0⟩ := kv
    cases v0 with
    | none =>
      rw [show List.filterMap (fun kv => Option.map (fun t => (kv.1, t)) kv.2)
          ((k0, (none : Option Tensor)) :: rest)
          = List.filterMap (fun kv => Option.map (fun t => (kv.1, t)) kv.2) rest
        from List.filterMap_cons_none rfl]
      simp only [List.map_cons]
      exact ih.cons _
    | some t0 =>
      rw [show List.filterMap (fun kv => Option.map (fun t => (kv.1, t)) kv.2)
          ((k0, some t0) :: rest)
          = (k0, t0) :: List.filterMap (fun kv => Option.map (fun t => (kv.1, t)) kv.2) rest
        from List.filterMap_cons_some rfl]
      simp only [List.map_cons]
      exact ih.cons₂ _

/-- Restoring an all-present node feature on child `j` recovers the
original per-graph tensor, whatever feature table the child started
with. -/
theorem child_node_lookup (G : List GraphData) (j : Nat) (hj : j < G.length)
    (hne : G ≠ []) (hwf : ∀ g ∈ G, WFgraph g) (hcoh : Coherent G)
    (tb0 : FeatTable) (k : String) (hall : AllPresentN G k) :
    tlookup (applyCarried tb0
      (((expectedBatch G).node_features.filterMap
          (fun kv => kv.2.map (fun t => (kv.1, t)))).map
        (fun p => (p.1, (⟨p.2.width,
          (p.2.rows.drop (sumN (G.take j))).take
            ((G.get ⟨j, hj⟩).get_node_num)⟩ : Tensor))))) k
      = tlookup (G.get ⟨j, hj⟩).node_features k := by
  obtain ⟨hcN, hcE, hwN, hwE⟩ := hcoh
  obtain ⟨t, hlk, hrows, hlenr, hwid⟩ :=
    @gather_lookup_allPresent G GraphData.node_features GraphData.get_node_num
      (padTable initNodeFeatures (sumN G)) k hne hcN hwN
      (fun g hg => (hwf g hg).2.2.2.1)
      (fun g hg => (hwf g hg).2.2.2.2.2.1) hall
  have hEBl : tlookup (expectedBatch G).node_features k = some (some t) := hlk
  obtain ⟨tj, htj⟩ := hall (G.get ⟨j, hj⟩) (List.get_mem G j hj)
  have hsl : (⟨t.width, (t.rows.drop (sumN (G.take j))).take
      ((G.get ⟨j, hj⟩).get_node_num)⟩ : Tensor) = tj := by
    have hr : (t.rows.drop (sumN (G.take j))).take ((G.get ⟨j, hj⟩).get_node_num)
        = tj.rows := by
      rw [hrows, node_rows_block G k j hj hwf hall, htj]
    have hw : t.width = tj.width :=
      (hwid (G.get ⟨j, hj⟩) (List.get_mem G j hj) tj htj).symm
    rw [hr, hw]
  have hm1 : (k, some t) ∈ (expectedBatch G).node_features := mem_of_tlookup hEBl
  have hm2 : ((k : String), t) ∈ (expectedBatch G).node_features.filterMap
      (fun kv => kv.2.map (fun t => (kv.1, t))) :=
    List.mem_filterMap.mpr ⟨(k, some t), hm1, rfl⟩
  have hm3 : ((k : String), (⟨t.width, (t.rows.drop (sumN (G.take j))).take
      ((G.get ⟨j, hj⟩).get_node_num)⟩ : Tensor))
      ∈ ((expectedBatch G).node_features.filterMap
          (fun kv => kv.2.map (fun t => (kv.1, t)))).map
        (fun p => (p.1, (⟨p.2.width,
          (p.2.rows.drop (sumN (G.take j))).take
            ((G.get ⟨j, hj⟩).get_node_num)⟩ : Tensor))) :=
    List.mem_map.mpr ⟨(k, t), hm2, rfl⟩
  have hnd := (featPairs_keys_sublist (expectedBatch G).node_features
    (fun q => (⟨q.2.width, (q.2.rows.drop (sumN (G.take j))).take
      ((G.get ⟨j, hj⟩).get_node_num)⟩ : Tensor))).nodup (EB_node_keys_nodup G)
  have hlook := @tlookup_applyCarried_mem _ tb0 _ hnd hm3
  have hlook' : tlookup (applyCarried tb0
      (((expectedBatch G).node_features.filterMap
          (fun kv => kv.2.map (fun t => (kv.1, t)))).map
        (fun p => (p.1, (⟨p.2.width,
          (p.2.rows.drop (sumN (G.take j))).take
            ((G.get ⟨j, hj⟩).get_node_num)⟩ : Tensor))))) k
      = some (some tj) := by
    rw [← hsl]
    exact hlook
  rw [hlook', htj]

/-- Restoring an all-present edge feature on child `j` recovers the
original per-graph tensor. -/
theorem child_edge_lookup (G : List GraphData) (j : Nat) (hj : j < G.length)
    (hne : G ≠ []) (hwf : ∀ g ∈ G, WFgraph g) (hcoh : Coherent G)
    (tb0 : FeatTable) (k : String) (hall : AllPresentE G k) :
    tlookup (applyCarried tb0
      (((expectedBatch G).edge_features.filterMap
          (fun kv => kv.2.map (fun t => (kv.1, t)))).map
        (fun p => (p.1, (⟨p.2.width,
          (p.2.rows.drop (sumE (G.take j))).take
            ((G.get ⟨j, hj⟩).get_edge_num)⟩ : Tensor))))) k
      = tlookup (G.get ⟨j, hj⟩).edge_features k := by
  obtain ⟨hcN, hcE, hwN, hwE⟩ := hcoh
  obtain ⟨t, hlk, hrows, hlenr, hwid⟩ :=
    @gather_lookup_allPresent G GraphData.edge_features GraphData.get_edge_num
      initEdgeFeatures k hne hcE hwE
      (fun g hg => (hwf g hg).2.2.2.2.1)
      (fun g hg => (hwf g hg).2.2.2.2.2.2.1) hall
  have hEBl : tlookup (expectedBatch G).edge_features k = some (some t) := hlk
  obtain ⟨tj, htj⟩ := hall (G.get ⟨j, hj⟩) (List.get_mem G j hj)
  have hsl : (⟨t.width, (t.rows.drop (sumE (G.take j))).take
      ((G.get ⟨j, hj⟩).get_edge_num)⟩ : Tensor) = tj := by
    have hr : (t.rows.drop (sumE (G.take j))).take ((G.get ⟨j, hj⟩).get_edge_num)
        = tj.rows := by
      rw [hrows, edge_rows_block G k j hj hwf hall, htj]
    have hw : t.width = tj.width :=
      (hwid (G.get ⟨j, hj⟩) (List.get_mem G j hj) tj htj).symm
    rw [hr, hw]
  have hm1 : (k, some t) ∈ (expectedBatch G).edge_features := mem_of_tlookup hEBl
  have hm2 : ((k : String), t) ∈ (expectedBatch G).edge_features.filterMap
      (fun kv => kv.2.map (fun t => (kv.1, t))) :=
    List.mem_filterMap.mpr ⟨(k, some t), hm1, rfl⟩
  have hm3 : ((k : String), (⟨t.width, (t.rows.drop (sumE (G.take j))).take
      ((G.get ⟨j, hj⟩).get_edge_num)⟩ : Tensor))
      ∈ ((expectedBatch G).edge_features.filterMap
          (fun kv => kv.2.map (fun t => (kv.1, t)))).map
        (fun p => (p.1, (⟨p.2.width,
          (p.2.rows.drop (sumE (G.take j))).take
            ((G.get ⟨j, hj⟩).get_edge_num)⟩ : Tensor))) :=
    List.mem_map.mpr ⟨(k, t), hm2, rfl⟩
  have hnd := (featPairs_keys_sublist (expectedBatch G).edge_features
    (fun q => (⟨q.2.width, (q.2.rows.drop (sumE (G.take j))).take
      ((G.get ⟨j, hj⟩).get_edge_num)⟩ : Tensor))).nodup (EB_edge_keys_nodup G)
  have hlook := @tlookup_applyCarried_mem _ tb0 _ hnd hm3
  have hlook' : tlookup (applyCarried tb0
      (((expectedBatch G).edge_features.filterMap
          (fun kv => kv.2.map (fun t => (kv.1, t)))).map
        (fun p => (p.1, (⟨p.2.width,
          (p.2.rows.drop (sumE (G.take j))).take
            ((G.get ⟨j, hj⟩).get_edge_num)⟩ : Tensor))))) k
      = some (some tj) := by
    rw [← hsl]
    exact hlook
  rw [hlook', htj]

theorem from_batch_eq (batch : GraphData) (bs : Nat)
    (h : batch.batch_size = some bs) :
    from_batch batch
      = (buildChildren batch.batch_num_nodes batch.batch_num_edges
          batch.get_all_edges (List.range bs) 0 0 >>= fun ret1 =>
         assignNodeFeats batch.batch_num_nodes bs batch.node_features ret1
           >>= fun ret2 =>
         assignEdgeFeats batch.batch_num_edges bs batch.edge_features ret2
           >>= fun ret3 =>
         assignAttrs batch.node_attributes batch.edge_attributes
           batch.batch_num_nodes batch.batch_num_edges
           (List.range bs) 0 0 ret3) := by
  rw [from_batch, h]

/-- `from_batch` inverts `to_batch` on its image: debatching the batch of a
well-formed coherent list rebuilds, graph by graph, the original node and
edge counts, endpoint lists, attribute records, and every feature that was
present on all graphs. -/
theorem round_trip_main (G : List GraphData) (hne : G ≠ [])
    (hwf : ∀ g ∈ G, WFgraph g) (hcoh : Coherent G) :
    ∃ H, from_batch (expectedBatch G) = .ok H
      ∧ H.length = G.length
      ∧ ∀ j (hj : j < G.length), ∃ h, H[j]? = some h
          ∧ h.get_node_num = (G.get ⟨j, hj⟩).get_node_num
          ∧ h.get_edge_num = (G.get ⟨j, hj⟩).get_edge_num
          ∧ h.edge_src = (G.get ⟨j, hj⟩).edge_src
          ∧ h.edge_tgt = (G.get ⟨j, hj⟩).edge_tgt
          ∧ h.node_attributes = (G.get ⟨j, hj⟩).node_attributes
          ∧ h.edge_attributes = (G.get ⟨j, hj⟩).edge_attributes
          ∧ (∀ k, AllPresentN G k →
              tlookup h.node_features k = tlookup (G.get ⟨j, hj⟩).node_features k)
          ∧ (∀ k, AllPresentE G k →
              tlookup h.edge_features k = tlookup (G.get ⟨j, hj⟩).edge_features k) := by
  have hcN := hcoh.1
  have hcE := hcoh.2.1
  have hwN := hcoh.2.2.1
  have hwE := hcoh.2.2.2
  have hwf0 : ∀ g ∈ ([] : List GraphData) ++ G, WFgraph g := by simpa using hwf
  have hbc := buildChildren_spec G [] hwf0
  simp only [List.nil_append, List.length_nil] at hbc
  rw [show sumN ([] : List GraphData) = 0 from rfl,
    show sumE ([] : List GraphData) = 0 from rfl] at hbc
  have hlen1 : (G.map childOf).length = G.length := List.length_map _ _
  have hcnt1 : ∀ j (hj : j < G.length),
      (G.map childOf)[j]? = some (childOf (G.get ⟨j, hj⟩)) := by
    intro j hj
    rw [List.getElem?_map, List.getElem?_eq_getElem hj]
    rfl
  have hc_nn : ∀ g : GraphData, (childOf g).get_node_num = g.get_node_num := by
    intro g
    show (List.replicate g.get_node_num initNodeAttr).length = g.get_node_num
    exact List.length_replicate _ _
  have hc_en : ∀ g : GraphData, (childOf g).get_edge_num = g.get_edge_num :=
    fun g => rfl
  have hrowsN : ∀ kv ∈ (expectedBatch G).node_features, ∀ t, kv.2 = some t →
      t.rows.length = sumN G := by
    intro kv hkv t hvt
    exact @gather_table_rows_len G GraphData.node_features GraphData.get_node_num
      (padTable initNodeFeatures (sumN G)) hne hcN hwN
      (fun g hg => (hwf g hg).2.2.2.1)
      (fun g hg => (hwf g hg).2.2.2.2.2.1)
      (mem_padTable_none initNodeFeatures_none) kv hkv t hvt
  have hcountN : ∀ j (hj : j < G.length), ∃ gj, (G.map childOf)[j]? = some gj
      ∧ gj.get_node_num = (G.get ⟨j, hj⟩).get_node_num := by
    intro j hj
    exact ⟨childOf (G.get ⟨j, hj⟩), hcnt1 j hj, hc_nn _⟩
  obtain ⟨ret2, hret2, hlen2, hupd2⟩ :=
    assignNodeFeats_spec (expectedBatch G).node_features G (G.map childOf)
      hlen1 hrowsN hcountN
  have hrowsE : ∀ kv ∈ (expectedBatch G).edge_features, ∀ t, kv.2 = some t →
      t.rows.length = sumE G := by
    intro kv hkv t hvt
    exact @gather_table_rows_len G GraphData.edge_features GraphData.get_edge_num
      initEdgeFeatures hne hcE hwE
      (fun g hg => (hwf g hg).2.2.2.2.1)
      (fun g hg => (hwf g hg).2.2.2.2.2.2.1)
      initEdgeFeatures_none kv hkv t hvt
  have hcountE : ∀ j (hj : j < G.length), ∃ gj, ret2[j]? = some gj
      ∧ gj.get_edge_num = (G.get ⟨j, hj⟩).get_edge_num := by
    intro j hj
    rw [hupd2 j hj, hcnt1 j hj]
    refine ⟨_, rfl, ?_⟩
    exact hc_en _
  obtain ⟨ret3, hret3, hlen3, hupd3⟩ :=
    assignEdgeFeats_spec (expectedBatch G).edge_features G ret2
      (by rw [hlen2, hlen1]) hrowsE hcountE
  have hea0 : ∀ g ∈ ([] : List GraphData) ++ G,
      g.edge_attributes.length = g.get_edge_num := by
    simp only [List.nil_append]
    exact fun g hg => (hwf g hg).2.2.2.2.2.2.2.1
  have hcountA : ∀ j (hj : j < G.length),
      ∃ gj, ret3[([] : List GraphData).length + j]? = some gj
        ∧ gj.node_attributes.length = (G.get ⟨j, hj⟩).get_node_num
        ∧ gj.edge_attributes.length = (G.get ⟨j, hj⟩).get_edge_num := by
    intro j hj
    simp only [List.length_nil, Nat.zero_add]
    rw [hupd3 j hj, hupd2 j hj, hcnt1 j hj]
    refine ⟨_, rfl, ?_, ?_⟩
    · show (List.replicate (G.get ⟨j, hj⟩).get_node_num initNodeAttr).length
        = (G.get ⟨j, hj⟩).get_node_num
      exact List.length_replicate _ _
    · show (List.replicate (G.get ⟨j, hj⟩).get_edge_num initEdgeAttr).length
        = (G.get ⟨j, hj⟩).get_edge_num
      exact List.length_replicate _ _
  obtain ⟨ret4, hret4, hlen4, hout4, hupd4⟩ :=
    assignAttrs_spec G [] ret3
      (by rw [hlen3, hlen2, hlen1]; simp)
      hea0 hcountA
  simp only [List.nil_append, List.length_nil] at hret4
  rw [show sumN ([] : List GraphData) = 0 from rfl,
    show sumE ([] : List GraphData) = 0 from rfl] at hret4
  simp only [List.length_nil, Nat.zero_add] at hupd4
  refine ⟨ret4, ?_, ?_, ?_⟩
  · rw [from_batch_eq (expectedBatch G) G.length rfl]
    rw [show (expectedBatch G).batch_num_nodes
        = some (G.map GraphData.get_node_num) from rfl]
    rw [show (expectedBatch G).batch_num_edges
        = some (G.map GraphData.get_edge_num) from rfl]
    rw [show (expectedBatch G).get_all_edges
        = ((stackEdges G 0).1.zip (stackEdges G 0).2) from rfl]
    rw [show (expectedBatch G).node_attributes
        = (G.map GraphData.node_attributes).join from rfl]
    rw [show (expectedBatch G).edge_attributes
        = (G.map GraphData.edge_attributes).join from rfl]
    rw [List.range_eq_range']
    rw [hbc, except_ok_bind, hret2, except_ok_bind, hret3, except_ok_bind, hret4]
  · rw [hlen4, hlen3, hlen2, hlen1]
  · intro j hj
    have h4 := hupd4 j hj
    rw [hupd3 j hj, hupd2 j hj, hcnt1 j hj] at h4
    simp only [Option.map_some'] at h4
    refine ⟨_, h4, rfl, rfl, rfl, rfl, rfl, rfl, ?_, ?_⟩
    · intro k hk
      exact child_node_lookup G j hj hne hwf hcoh _ k hk
    · intro k hk
      exact child_edge_lookup G j hj hne hwf hcoh _ k hk

/-! ### Claims C3, C4 and C9 -/

/-- **C3** (counterexample): the claim promises the round trip for *every*
nonempty list of graphs, but on `[GraphData()]` — a freshly constructed
graph with zero nodes — `pack` already fails with an `AssertionError`
(`add_nodes(0)` refuses a non-positive count), so `unpack(pack(G))`
returns no list at all. -/
theorem c3_counterexample :
    (to_batch [GraphData.init] >>= from_batch) = .error .assertionError := by
  decide

/-- **C3** (amended): for a nonempty list of well-formed, feature-coherent
graphs, `unpack(pack(G))` succeeds and returns one graph per input which
reproduces the input's node count, edge count, ordered endpoint lists,
node and edge attribute records, and — for every feature name present on
all inputs — the input's feature tensor. -/
theorem c3_round_trip (G : List GraphData) (hne : G ≠ [])
    (hwf : ∀ g ∈ G, WFgraph g) (hcoh : Coherent G) :
    ∃ B H, to_batch G = .ok B ∧ from_batch B = .ok H
      ∧ H.length = G.length
      ∧ ∀ j (hj : j < G.length), ∃ h, H[j]? = some h
          ∧ h.get_node_num = (G.get ⟨j, hj⟩).get_node_num
          ∧ h.get_edge_num = (G.get ⟨j, hj⟩).get_edge_num
          ∧ h.edge_src = (G.get ⟨j, hj⟩).edge_src
          ∧ h.edge_tgt = (G.get ⟨j, hj⟩).edge_tgt
          ∧ h.node_attributes = (G.get ⟨j, hj⟩).node_attributes
          ∧ h.edge_attributes = (G.get ⟨j, hj⟩).edge_attributes
          ∧ (∀ k, AllPresentN G k →
              tlookup h.node_features k = tlookup (G.get ⟨j, hj⟩).node_features k)
          ∧ (∀ k, AllPresentE G k →
              tlookup h.edge_features k
                = tlookup (G.get ⟨j, hj⟩).edge_features k) := by
  obtain ⟨H, h1, h2, h3⟩ := round_trip_main G hne hwf hcoh
  exact ⟨expectedBatch G, H, to_batch_spec G hne hwf hcoh, h1, h2, h3⟩

theorem c3_witness :
    ([wB, wD] : List GraphData) ≠ []
      ∧ (∀ g ∈ [wB, wD], WFgraph g)
      ∧ Coherent [wB, wD]
      ∧ (∃ B H, to_batch [wB, wD] = .ok B ∧ from_batch B = .ok H
          ∧ H.length = [wB, wD].length
          ∧ ∀ j (hj : j < [wB, wD].length), ∃ h, H[j]? = some h
              ∧ h.get_node_num = ([wB, wD].get ⟨j, hj⟩).get_node_num
              ∧ h.get_edge_num = ([wB, wD].get ⟨j, hj⟩).get_edge_num
              ∧ h.edge_src = ([wB, wD].get ⟨j, hj⟩).edge_src
              ∧ h.edge_tgt = ([wB, wD].get ⟨j, hj⟩).edge_tgt
              ∧ h.node_attributes = ([wB, wD].get ⟨j, hj⟩).node_attributes
              ∧ h.edge_attributes = ([wB, wD].get ⟨j, hj⟩).edge_attributes
              ∧ (∀ k, AllPresentN [wB, wD] k →
                  tlookup h.node_features k
                    = tlookup ([wB, wD].get ⟨j, hj⟩).node_features k)
              ∧ (∀ k, AllPresentE [wB, wD] k →
                  tlookup h.edge_features k
                    = tlookup ([wB, wD].get ⟨j, hj⟩).edge_features k)) :=
  ⟨List.cons_ne_nil _ _, by decide, by decide,
    c3_round_trip [wB, wD] (List.cons_ne_nil _ _) (by decide) (by decide)⟩

/-- **C4** (counterexample): the node feature `x` is present on `wB` and
not present on the two-node graph `wA` (which does not even register the
name). The claim says `pack` still succeeds and drops `x`; instead the
gathered value list for `x` has no `None`, the two-row concatenation is
written into the four-node batch, and the length assertion aborts
`to_batch` with an `AssertionError`. -/
theorem c4_counterexample :
    to_batch [wB, wA] = .error .assertionError := by
  decide

/-- **C4** (amended): for well-formed graphs whose tables are coherent — a
name present anywhere is at least registered everywhere — `pack` succeeds,
and a feature name is carried (mapped to a tensor) in the batch's node or
edge table exactly when it is present on every input graph; names absent
somewhere are dropped. -/
theorem c4_feature_carrying (G : List GraphData) (hne : G ≠ [])
    (hwf : ∀ g ∈ G, WFgraph g) (hcoh : Coherent G) :
    ∃ B, to_batch G = .ok B
      ∧ (∀ k, (∃ t, tlookup B.node_features k = some (some t))
          ↔ AllPresentN G k)
      ∧ (∀ k, (∃ t, tlookup B.edge_features k = some (some t))
          ↔ AllPresentE G k) := by
  refine ⟨expectedBatch G, to_batch_spec G hne hwf hcoh, ?_, ?_⟩
  · intro k
    constructor
    · rintro ⟨t, ht⟩
      exact (@gather_lookup_inv G GraphData.node_features GraphData.get_node_num
        (padTable initNodeFeatures (sumN G)) k t hne hcoh.1 hcoh.2.2.1
        (fun g hg => (hwf g hg).2.2.2.1)
        (fun g hg => (hwf g hg).2.2.2.2.2.1)
        (mem_padTable_none initNodeFeatures_none) ht).1
    · intro hk
      obtain ⟨t, hlk, _, _, _⟩ :=
        @gather_lookup_allPresent G GraphData.node_features
          GraphData.get_node_num (padTable initNodeFeatures (sumN G)) k hne
          hcoh.1 hcoh.2.2.1
          (fun g hg => (hwf g hg).2.2.2.1)
          (fun g hg => (hwf g hg).2.2.2.2.2.1) hk
      exact ⟨t, hlk⟩
  · intro k
    constructor
    · rintro ⟨t, ht⟩
      exact (@gather_lookup_inv G GraphData.edge_features GraphData.get_edge_num
        initEdgeFeatures k t hne hcoh.2.1 hcoh.2.2.2
        (fun g hg => (hwf g hg).2.2.2.2.1)
        (fun g hg => (hwf g hg).2.2.2.2.2.2.1)
        initEdgeFeatures_none ht).1
    · intro hk
      obtain ⟨t, hlk, _, _, _⟩ :=
        @gather_lookup_allPresent G GraphData.edge_features
          GraphData.get_edge_num initEdgeFeatures k hne
          hcoh.2.1 hcoh.2.2.2
          (fun g hg => (hwf g hg).2.2.2.2.1)
          (fun g hg => (hwf g hg).2.2.2.2.2.2.1) hk
      exact ⟨t, hlk⟩

theorem c4_witness :
    ([wB, wD] : List GraphData) ≠ []
      ∧ (∀ g ∈ [wB, wD], WFgraph g)
      ∧ Coherent [wB, wD]
      ∧ (∃ B, to_batch [wB, wD] = .ok B
          ∧ (∀ k, (∃ t, tlookup B.node_features k = some (some t))
              ↔ AllPresentN [wB, wD] k)
          ∧ (∀ k, (∃ t, tlookup B.edge_features k = some (some t))
              ↔ AllPresentE [wB, wD] k)) :=
  ⟨List.cons_ne_nil _ _, by decide, by decide,
    c4_feature_carrying [wB, wD] (List.cons_ne_nil _ _) (by decide) (by decide)⟩

/-- **C9** (counterexample): debatching a plain, never-batched graph does
not raise the `PreconditionError` the claim names: `batch_size` is `None`,
so `range(batch_size)` raises a plain `TypeError` — there is no explicit
precondition check in `from_batch`. -/
theorem c9_counterexample :
    from_batch GraphData.init = .error .typeError
      ∧ Err.typeError ≠ Err.preconditionError := by
  decide

/-- **C9** (amended): on a graph without batch metadata `unpack` fails,
but with a `TypeError` (iterating `range(None)`), not a
`PreconditionError`; on a batch produced by `pack` from `n` well-formed
coherent graphs it returns exactly `n` graphs. -/
theorem c9_unpack_behavior (b : GraphData) (G : List GraphData)
    (hb : b.batch_size = none) (hne : G ≠ [])
    (hwf : ∀ g ∈ G, WFgraph g) (hcoh : Coherent G) :
    from_batch b = .error .typeError
      ∧ ∃ B H, to_batch G = .ok B ∧ B.batch_size = some G.length
          ∧ from_batch B = .ok H ∧ H.length = G.length := by
  constructor
  · rw [from_batch, hb]
  · obtain ⟨H, h1, h2, _⟩ := round_trip_main G hne hwf hcoh
    exact ⟨expectedBatch G, H, to_batch_spec G hne hwf hcoh, rfl, h1, h2⟩

theorem c9_witness :
    GraphData.init.batch_size = none
      ∧ ([wE] : List GraphData) ≠ []
      ∧ (∀ g ∈ [wE], WFgraph g)
      ∧ Coherent [wE]
      ∧ (from_batch GraphData.init = .error .typeError
          ∧ ∃ B H, to_batch [wE] = .ok B ∧ B.batch_size = some [wE].length
              ∧ from_batch B = .ok H ∧ H.length = [wE].length) :=
  ⟨rfl, List.cons_ne_nil _ _, by decide, by decide,
    c9_unpack_behavior GraphData.init [wE] rfl (List.cons_ne_nil _ _)
      (by decide) (by decide)⟩
